import Mathlib

/-!
Verification of the `imagemask` range module

Shallow embedding of `src/range/non_zero.rs`, `src/range/merge_ordered_iter.rs`
and `src/range/mod.rs`.  Coordinates (`usize` / `u64` / `u32` in the source) are
modelled as `Nat`; none of the modelled operations rely on machine-width
wrap-around except the whole-range translation operators, which are modelled
with an explicit `% 2 ^ w`.  Fallible Rust code (`TryFrom`, `Result`) is
modelled with `Except`; the `unreachable!` branch of the decoding iterator is
modelled as an explicit `Except Unit` failure.
-/

/-- The Rust type `NonZeroRange<T>` from `non_zero.rs`: a half-open interval `[start, stop)`.
The Rust field `end` is renamed `stop` (`end` is a Lean keyword).  The
non-emptiness invariant is not part of the type (the Rust type only checks it
in debug builds); it is tracked by propositions. -/
structure NonZeroRange where
  start : Nat
  stop : Nat
deriving DecidableEq, Repr

/-- Rust `NonZeroRange::overlaps`. -/
def NonZeroRange.overlaps (a b : NonZeroRange) : Bool :=
  decide (a.start < b.stop) && decide (b.start < a.stop)

/-- The instance `TryFrom<Range<T>> for NonZeroRange<T>`: fails with a
`RangeZeroLenghtError` carrying the offending range exactly when the range
`is_empty()` (i.e. `¬ start < end`). -/
def tryFromRange (start stop : Nat) : Except (Nat × Nat) NonZeroRange :=
  if start < stop then .ok ⟨start, stop⟩ else .error (start, stop)

/-- The struct `OrderedRangeItem` from `mod.rs`: a range with a priority and a metadata
payload. -/
structure OrderedRangeItem (M : Type) where
  range : NonZeroRange
  priority : Nat
  meta : M
deriving DecidableEq, Repr

/-- The sort key `OrderedRangeItem::comparator` is `(range.start, u32::MAX - priority)`,
ascending; as a relation between two consecutive items this means: ascending
by start and, for equal starts, descending by priority. -/
def comparatorLE {M : Type} (a b : OrderedRangeItem M) : Prop :=
  a.range.start < b.range.start ∨
    (a.range.start = b.range.start ∧ b.priority ≤ a.priority)

instance {M : Type} (a b : OrderedRangeItem M) : Decidable (comparatorLE a b) :=
  inferInstanceAs (Decidable (a.range.start < b.range.start ∨
    (a.range.start = b.range.start ∧ b.priority ≤ a.priority)))

/-- Boolean chain check (executable stand-in for `List.Chain'`, whose
library `Decidable` instance does not reduce in the kernel). -/
def chainB {A : Type} (r : A → A → Bool) : List A → Bool
  | [] => true
  | [_] => true
  | a :: b :: rest => r a b && chainB r (b :: rest)

/-- The check `chainB` agrees with `List.Chain'`. -/
theorem chainB_iff {A : Type} (r : A → A → Bool) (l : List A) :
    chainB r l = true ↔ l.Chain' (fun a b => r a b = true) := by
  match l with
  | [] => simp [chainB]
  | [a] => simp [chainB]
  | a :: b :: rest =>
    rw [List.chain'_cons, ← chainB_iff r (b :: rest)]
    simp [chainB]

/-- The input precondition of the merge engine: sorted ascending by
`(start, priority descending)`. -/
def SortedInput {M : Type} (l : List (OrderedRangeItem M)) : Prop :=
  l.Chain' comparatorLE

/-- Rust `OrderedNonOverlappingRangeIter::insert_remainer`, backwards scan.
`rev` is the not-yet-scanned part of the buffer, in reverse order (head of
`rev` = the element the Rust loop examines at the current `idx`); `back` is
the already-scanned suffix of the buffer, in order. -/
def insertRemAux {M : Type} :
    List (OrderedRangeItem M) → OrderedRangeItem M → List (OrderedRangeItem M) →
    List (OrderedRangeItem M)
  | [], new, back => new :: back
  | existing :: revRest, new, back =>
    if existing.range.stop ≤ new.range.start then
      -- no overlap anymore: insert `new` right after `existing`
      (existing :: revRest).reverse ++ new :: back
    else if new.priority ≤ existing.priority then
      -- existing has priority: truncate `new` to the part after `existing`
      match tryFromRange existing.range.stop new.range.stop with
      | .ok r => (existing :: revRest).reverse ++ { new with range := r } :: back
      | .error _ => (existing :: revRest).reverse ++ back
    else
      -- new has priority: split `existing` around `new`
      match tryFromRange existing.range.start new.range.start,
            tryFromRange new.range.stop existing.range.stop with
      | .ok before, .ok after =>
        revRest.reverse ++ { existing with range := before } :: new ::
          { existing with range := after } :: back
      | .ok before, .error _ =>
        revRest.reverse ++ { existing with range := before } :: new :: back
      | .error _, .ok after =>
        insertRemAux revRest new ({ existing with range := after } :: back)
      | .error _, .error _ =>
        insertRemAux revRest new back

/-- Rust `insert_remainer` proper: scan the buffer from its back. -/
def insert_remainer {M : Type}
    (ordered_non_overlapping : List (OrderedRangeItem M))
    (new : OrderedRangeItem M) : List (OrderedRangeItem M) :=
  insertRemAux ordered_non_overlapping.reverse new []

/-- State of `OrderedNonOverlappingRangeIter`: the (fused) upstream iterator,
the remainder buffer (front = head) and the `max_start` horizon. -/
structure MergeState (M : Type) where
  iter : List (OrderedRangeItem M)
  remainers : List (OrderedRangeItem M)
  max_start : Nat
deriving DecidableEq, Repr

/-- The `for next in &mut self.iter { ... }` loop of `next`:
consumes input items, updating `max_start` and inserting into the buffer,
until `first_end < max_start` (then `break`) or the input is exhausted.
`first_end` is set once (`get_or_insert`) and never changed afterwards.
Returns the rest of the input, the new buffer and the new `max_start`. -/
def mergeLoop {M : Type} :
    Option Nat → List (OrderedRangeItem M) → List (OrderedRangeItem M) → Nat →
    List (OrderedRangeItem M) × List (OrderedRangeItem M) × Nat
  | _, [], rem, max_start => ([], rem, max_start)
  | first_end, next :: rest, rem, _ =>
    let ms := next.range.start
    let fe := first_end.getD next.range.stop
    let rem' := insert_remainer rem next
    if fe < ms then (rest, rem', ms) else mergeLoop (some fe) rest rem' ms

/-- One call of `OrderedNonOverlappingRangeIter::next`. -/
def mergeNext {M : Type} (s : MergeState M) :
    Option (OrderedRangeItem M) × MergeState M :=
  match s.remainers with
  | smallest :: restRem =>
    if smallest.range.stop < s.max_start then
      (some smallest, { s with remainers := restRem })
    else
      match mergeLoop (some smallest.range.stop) s.iter s.remainers s.max_start with
      | (it, [], ms) => (none, ⟨it, [], ms⟩)
      | (it, f :: r, ms) => (some f, ⟨it, r, ms⟩)
  | [] =>
    match mergeLoop none s.iter [] s.max_start with
    | (it, [], ms) => (none, ⟨it, [], ms⟩)
    | (it, f :: r, ms) => (some f, ⟨it, r, ms⟩)

/-- Collect the items produced by repeated calls to `next`, with explicit
fuel (the fuel is only a termination device; `mergeFuel` below always
suffices, see `mergeAllFuel_stable`). -/
def mergeAllFuel {M : Type} : Nat → MergeState M → List (OrderedRangeItem M)
  | 0, _ => []
  | fuel + 1, s =>
    match mergeNext s with
    | (none, _) => []
    | (some x, s') => x :: mergeAllFuel fuel s'

/-- An upper bound on the number of `next` calls a run can need: each consumed
input item grows the buffer by at most two, and each produced item pops one
buffer entry. -/
def mergeFuel {M : Type} (s : MergeState M) : Nat :=
  3 * s.iter.length + s.remainers.length + 1

/-- The full output of `OrderedNonOverlappingRangeIter::new(iter)` driven to
exhaustion (initial state: empty buffer, `max_start = 0`). -/
def mergeOutput {M : Type} (inputs : List (OrderedRangeItem M)) :
    List (OrderedRangeItem M) :=
  mergeAllFuel (mergeFuel ⟨inputs, [], 0⟩) ⟨inputs, [], 0⟩

/-- Pairwise non-overlap of the emitted records, as promised by the spec. -/
def PairwiseNonOverlapping {M : Type} (l : List (OrderedRangeItem M)) : Prop :=
  l.Pairwise (fun a b => a.range.overlaps b.range = false)

instance {M : Type} (l : List (OrderedRangeItem M)) :
    Decidable (PairwiseNonOverlapping l) :=
  inferInstanceAs (Decidable (l.Pairwise
    fun a b : OrderedRangeItem M => a.range.overlaps b.range = false))

/-- Sorted ascending by range start, as promised by the spec. -/
def SortedByStart {M : Type} (l : List (OrderedRangeItem M)) : Prop :=
  l.Chain' (fun a b => a.range.start ≤ b.range.start)

instance {M : Type} (l : List (OrderedRangeItem M)) :
    Decidable (SortedByStart l) :=
  decidable_of_iff
    (chainB (fun a b : OrderedRangeItem M =>
      decide (a.range.start ≤ b.range.start)) l = true)
    (by rw [chainB_iff]; unfold SortedByStart; simp)

instance {M : Type} (l : List (OrderedRangeItem M)) :
    Decidable (SortedInput l) :=
  decidable_of_iff
    (chainB (fun a b : OrderedRangeItem M => decide (comparatorLE a b)) l = true)
    (by rw [chainB_iff]; unfold SortedInput; simp)

/-- All ranges in the list are non-empty. -/
def AllNonZero {M : Type} (l : List (OrderedRangeItem M)) : Prop :=
  ∀ x ∈ l, x.range.start < x.range.stop

instance {M : Type} (l : List (OrderedRangeItem M)) :
    Decidable (AllNonZero l) :=
  inferInstanceAs (Decidable (∀ x ∈ l, x.range.start < x.range.stop))

/-- A coordinate `x` lies in a half-open range. -/
def memRange (x : Nat) (r : NonZeroRange) : Prop :=
  r.start ≤ x ∧ x < r.stop

instance (x : Nat) (r : NonZeroRange) : Decidable (memRange x r) :=
  inferInstanceAs (Decidable (r.start ≤ x ∧ x < r.stop))

/-- A coordinate is covered by some record of the list. -/
def coveredBy {M : Type} (l : List (OrderedRangeItem M)) (x : Nat) : Prop :=
  ∃ i ∈ l, memRange x i.range

instance {M : Type} (l : List (OrderedRangeItem M)) (x : Nat) :
    Decidable (coveredBy l x) :=
  inferInstanceAs (Decidable (∃ i ∈ l, memRange x i.range))

/-- The key reachability invariant of the remainder buffer, stated on the
*reversed* buffer: for every buffer element, every coordinate from the
horizon `ms` up to that element's start is covered by the elements to its
left in the buffer (= the rest of the reversed list) or by the
already-emitted records `G`.  Popping the front moves it into `G`. -/
def RevLeftCov {M : Type} (ms : Nat) (G : List (OrderedRangeItem M)) :
    List (OrderedRangeItem M) → Prop
  | [] => True
  | e :: rest =>
    (∀ x, ms ≤ x → x < e.range.start → coveredBy (rest ++ G) x) ∧
      RevLeftCov ms G rest

/-- The loop invariant on the pending input: the head (if any) starts at or
after the horizon. -/
def headGE {M : Type} (ms : Nat) : List (OrderedRangeItem M) → Prop
  | [] => True
  | y :: _ => ms ≤ y.range.start

/-! ## Whole-range translation (`Add<T>` / `Sub<T> for NonZeroRange<T>`)

The Rust operators add/subtract the scalar to both endpoints with plain
machine arithmetic; over a `w`-bit unsigned domain that is arithmetic modulo
`2 ^ w` (release builds wrap). -/

/-- The operator `Add<T> for NonZeroRange<T>` over a `w`-bit unsigned domain. -/
def nonZeroRangeAdd (w : Nat) (r : NonZeroRange) (rhs : Nat) : NonZeroRange :=
  ⟨(r.start + rhs) % 2 ^ w, (r.stop + rhs) % 2 ^ w⟩

/-- The operator `Sub<T> for NonZeroRange<T>` over a `w`-bit unsigned domain
(wrapping subtraction `a - b = a + (2^w - b) (mod 2^w)`). -/
def nonZeroRangeSub (w : Nat) (r : NonZeroRange) (rhs : Nat) : NonZeroRange :=
  ⟨(r.start + (2 ^ w - rhs % 2 ^ w)) % 2 ^ w,
   (r.stop + (2 ^ w - rhs % 2 ^ w)) % 2 ^ w⟩

/-! ## Compact run-length store (`mod.rs`)

`TIncluded` and `TExcluded` are narrow unsigned integer types; they are
modelled by their maximal representable value (`ib` / `eb`), e.g. `255` for
`u8`: `TryFrom<u64>` succeeds exactly for values up to that bound. -/

/-- The store `NonEmptyOrderedRanges<TIncluded, TExcluded, Vec<TMeta>>`. -/
structure NonEmptyOrderedRanges (M : Type) where
  initial_offset : Nat
  included : List Nat
  excluded : List Nat
  meta : List M
deriving DecidableEq, Repr

/-- Helper `create_checked` from `try_from_ordered_iter`: rejects `end <= start`,
then narrows `end - start` into the target type (`bound` = largest value the
narrow type can hold). -/
def create_checked (bound start stop : Nat) : Except String Nat :=
  if stop ≤ start then
    .error (toString stop ++ " must be > " ++ toString start)
  else if bound < stop - start then
    .error "out of range integral type conversion attempted"
  else
    .ok (stop - start)

/-- The loop of `try_from_ordered_iter` over the items after the first:
for each item, its length is checked first (the iterator adapter maps each
item through `create_checked::<TIncluded>` as it is pulled), then the gap
from `cur_pos` to its start. -/
def tryFromRest {M : Type} (ib eb : Nat) :
    Nat → List ((Nat × Nat) × M) → Except String (List Nat × List Nat × List M)
  | _, [] => .ok ([], [], [])
  | cur_pos, ((s, e), m) :: rest => do
    let len ← create_checked ib s e
    let gap ← create_checked eb cur_pos s
    let (incl, excl, ms) ← tryFromRest ib eb e rest
    .ok (len :: incl, gap :: excl, m :: ms)

/-- Rust `NonEmptyOrderedRanges::try_from_ordered_iter`.  `ib` / `eb` are the
largest values representable in `TIncluded` / `TExcluded`. -/
def try_from_ordered_iter {M : Type} (ib eb : Nat)
    (l : List ((Nat × Nat) × M)) : Except String (NonEmptyOrderedRanges M) :=
  match l with
  | [] => .error "Requires at least one item"
  | ((s, e), m) :: rest => do
    let len ← create_checked ib s e
    let (incl, excl, ms) ← tryFromRest ib eb e rest
    .ok ⟨s, len :: incl, excl, m :: ms⟩

/-- State of `OrderedRangeIter` (the borrowed slices and the running offset).
The Rust field `include` is a Lean keyword, hence `include'`. -/
structure OrderedRangeIterState (M : Type) where
  include' : List Nat
  excluded : List Nat
  meta : List M
  offset : Nat
deriving DecidableEq, Repr

/-- Rust `OrderedRangeIter::next`.  `Except.error ()` models reaching the
`unreachable!("There must be more metadata")` branch; the produced range is
built with `NonZeroRange::new_unchecked(offset..out_range_end)`.  The offset
is advanced only when an excluded entry remains, exactly as in the source. -/
def rangeIterNext {M : Type} :
    OrderedRangeIterState M →
    Except Unit (Option ((NonZeroRange × M) × OrderedRangeIterState M))
  | ⟨[], _, _, _⟩ => .ok none
  | ⟨inc :: restI, excl, ms, offset⟩ =>
    match ms with
    | [] => .error ()
    | m :: restM =>
      let out_range_end := offset + inc
      let out_range : NonZeroRange := ⟨offset, out_range_end⟩
      match excl with
      | ex :: restE =>
        .ok (some ((out_range, m), ⟨restI, restE, restM, out_range_end + ex⟩))
      | [] => .ok (some ((out_range, m), ⟨restI, [], restM, offset⟩))

/-- Drive `rangeIterNext` to completion, collecting the produced items
(`fuel` is a termination device; `include'.length` always suffices). -/
def rangeIterRun {M : Type} :
    Nat → OrderedRangeIterState M → Except Unit (List (NonZeroRange × M))
  | 0, _ => .ok []
  | fuel + 1, st =>
    match rangeIterNext st with
    | .error () => .error ()
    | .ok none => .ok []
    | .ok (some (item, st')) => (rangeIterRun fuel st').map (item :: ·)

/-- Rust `NonEmptyOrderedRanges::iter`. -/
def NonEmptyOrderedRanges.iter {M : Type} (store : NonEmptyOrderedRanges M) :
    OrderedRangeIterState M :=
  ⟨store.included, store.excluded, store.meta, store.initial_offset⟩

/-- Decoding a store: run its iterator to completion. -/
def decode {M : Type} (store : NonEmptyOrderedRanges M) :
    Except Unit (List (NonZeroRange × M)) :=
  rangeIterRun store.included.length store.iter

/-- Validity of an encoder input, as listed by the spec: non-empty, every
interval non-empty with representable length, consecutive intervals separated
by a strictly positive, representable gap. -/
def ValidEncodeInput (ib eb : Nat) {M : Type} (l : List ((Nat × Nat) × M)) : Prop :=
  l ≠ [] ∧ (∀ p ∈ l, p.1.1 < p.1.2 ∧ p.1.2 - p.1.1 ≤ ib) ∧
    l.Chain' (fun a b => a.1.2 < b.1.1 ∧ b.1.1 - a.1.2 ≤ eb)

/-- The failure conditions of `try_from_ordered_iter`, as listed by the
claim: empty input; some interval with `end <= start` or length too large;
some consecutive pair with non-positive gap or gap too large. -/
def EncodeFailureCondition (ib eb : Nat) {M : Type}
    (l : List ((Nat × Nat) × M)) : Prop :=
  l = [] ∨ (∃ p ∈ l, p.1.2 ≤ p.1.1 ∨ ib < p.1.2 - p.1.1) ∨
    ∃ q ∈ l.zip l.tail, q.2.1.1 ≤ q.1.1.2 ∨ eb < q.2.1.1 - q.1.1.2

/-- The lengths array an encoding of `l` produces. -/
def includedOf {M : Type} (l : List ((Nat × Nat) × M)) : List Nat :=
  l.map (fun p => p.1.2 - p.1.1)

/-- The metadata array an encoding of `l` produces. -/
def metaOf {M : Type} (l : List ((Nat × Nat) × M)) : List M :=
  l.map (fun p => p.2)

/-- The gaps array an encoding of the items after the first produces,
starting from position `cur`. -/
def gapsFrom {M : Type} : Nat → List ((Nat × Nat) × M) → List Nat
  | _, [] => []
  | cur, p :: rest => (p.1.1 - cur) :: gapsFrom p.1.2 rest

/-- The gaps array an encoding of all of `l` produces. -/
def gapsL {M : Type} : List ((Nat × Nat) × M) → List Nat
  | [] => []
  | x :: rest => gapsFrom x.1.2 rest

/-- The initial offset an encoding of `l` records. -/
def offsetOf {M : Type} : List ((Nat × Nat) × M) → Nat
  | [] => 0
  | x :: _ => x.1.1

/-- The gap conditions `tryFromRest` checks, threading the running
position `cur`. -/
def RestChain {M : Type} (eb : Nat) : Nat → List ((Nat × Nat) × M) → Prop
  | _, [] => True
  | cur, p :: rest => cur < p.1.1 ∧ p.1.1 - cur ≤ eb ∧ RestChain eb p.1.2 rest

/-! ## Concrete inputs used to exercise the merge engine -/

/-- A sorted input (ascending by `(start, priority descending)`):
`[(0..10, prio 5), (0..20, prio 1), (1..5, prio 3)]`. -/
def mergeBugInput : List (OrderedRangeItem Unit) :=
  [⟨⟨0, 10⟩, 5, ()⟩, ⟨⟨0, 20⟩, 1, ()⟩, ⟨⟨1, 5⟩, 3, ()⟩]

/-! ## Theorems -/

/-- The constructor `tryFromRange` produces `ok` exactly on non-empty ranges, and then keeps
the endpoints unchanged. -/
theorem tryFromRange_ok_iff (s e : Nat) (r : NonZeroRange) :
    tryFromRange s e = .ok r ↔ s < e ∧ r = ⟨s, e⟩ := by
  unfold tryFromRange
  by_cases h : s < e <;> simp [h, eq_comm]

/-- C9: the checked interval constructor (`TryFrom<Range<T>> for
`NonZeroRange<T>`) fails with a `RangeZeroLenght` error carrying the offending
`start..end` pair exactly when `start >= end`, and for `start < end` succeeds
and returns the interval with the given endpoints unchanged. -/
theorem checked_constructor_spec (s e : Nat) :
    (tryFromRange s e = .error (s, e) ↔ e ≤ s) ∧
    (s < e → tryFromRange s e = .ok ⟨s, e⟩) := by
  unfold tryFromRange
  by_cases h : s < e
  · simp [h]
  · simp [h]
    omega

/-- Witness for `checked_constructor_spec` at `3..3` and `3..7`. -/
theorem checked_constructor_spec_witness :
    ((tryFromRange 3 3 = .error (3, 3) ↔ 3 ≤ 3) ∧
      (3 < 3 → tryFromRange 3 3 = .ok ⟨3, 3⟩)) ∧
    ((tryFromRange 3 7 = .error (3, 7) ↔ 7 ≤ 3) ∧
      (3 < 7 → tryFromRange 3 7 = .ok ⟨3, 7⟩)) :=
  ⟨checked_constructor_spec 3 3, checked_constructor_spec 3 7⟩

/-- C10 counterexample: over the 8-bit unsigned domain the valid range
`250..255` translated by `+ 1` wraps to `251..0`, which is empty: translation
does not preserve `start < end` for every scalar offset. -/
theorem translation_wraps_counterexample :
    (250 : Nat) < 255 ∧ 255 < 2 ^ 8 ∧
    nonZeroRangeAdd 8 ⟨250, 255⟩ 1 = ⟨251, 0⟩ ∧
    ¬ (nonZeroRangeAdd 8 ⟨250, 255⟩ 1).start <
        (nonZeroRangeAdd 8 ⟨250, 255⟩ 1).stop ∧
    nonZeroRangeSub 8 ⟨0, 5⟩ 1 = ⟨255, 4⟩ ∧
    ¬ (nonZeroRangeSub 8 ⟨0, 5⟩ 1).start < (nonZeroRangeSub 8 ⟨0, 5⟩ 1).stop := by
  decide

/-- C10 (amended): for a valid range with endpoints in the `w`-bit domain,
translation by `+ rhs` preserves `start < end` whenever that translation does
not wrap (`stop + rhs < 2 ^ w`), and, independently, translation by `- rhs`
preserves it whenever it does not wrap below zero (`rhs ≤ start`). -/
theorem translation_preserves_nonzero (w rhs : Nat) (r : NonZeroRange)
    (hnz : r.start < r.stop) (hw : r.stop < 2 ^ w) :
    (r.stop + rhs < 2 ^ w →
      (nonZeroRangeAdd w r rhs).start < (nonZeroRangeAdd w r rhs).stop) ∧
    (rhs ≤ r.start →
      (nonZeroRangeSub w r rhs).start < (nonZeroRangeSub w r rhs).stop) := by
  unfold nonZeroRangeAdd nonZeroRangeSub
  constructor
  · intro hadd
    simp only
    rw [Nat.mod_eq_of_lt (by omega), Nat.mod_eq_of_lt (by omega)]
    omega
  · intro hsub
    simp only
    have hr : rhs % 2 ^ w = rhs := Nat.mod_eq_of_lt (by omega)
    rw [hr]
    have h1 : r.start + (2 ^ w - rhs) = (r.start - rhs) + 2 ^ w := by omega
    have h2 : r.stop + (2 ^ w - rhs) = (r.stop - rhs) + 2 ^ w := by omega
    rw [h1, h2, Nat.add_mod_right, Nat.add_mod_right,
      Nat.mod_eq_of_lt (by omega), Nat.mod_eq_of_lt (by omega)]
    omega

/-- Witness for `translation_preserves_nonzero`, exercising each conditional
on its own: `0..5 + 10` in 8 bits (subtraction by `10` would wrap) and
`200..250 - 100` in 8 bits (addition of `100` would wrap). -/
theorem translation_preserves_nonzero_witness :
    (nonZeroRangeAdd 8 ⟨0, 5⟩ 10).start < (nonZeroRangeAdd 8 ⟨0, 5⟩ 10).stop ∧
    (nonZeroRangeSub 8 ⟨200, 250⟩ 100).start <
      (nonZeroRangeSub 8 ⟨200, 250⟩ 100).stop :=
  ⟨(translation_preserves_nonzero 8 10 ⟨0, 5⟩ (by decide) (by decide)).1
      (by decide),
    (translation_preserves_nonzero 8 100 ⟨200, 250⟩ (by decide) (by decide)).2
      (by decide)⟩

/-- C1 (failing input): on the sorted, non-empty input `mergeBugInput`
the merge engine emits `[(0..10, prio 5), (5..20, prio 1)]`, whose two
records overlap — the output is *not* pairwise non-overlapping (the remainder
buffer invariant is violated: `insert_remainer` treats the truncated remainder
`10..20` as overlapping the new item `1..5` because its check only compares
`existing.end` with `new.start`, then moves the remainder's start down to
`new.end = 5`). -/
theorem merge_output_overlaps :
    SortedInput mergeBugInput ∧ AllNonZero mergeBugInput ∧
    mergeOutput mergeBugInput = [⟨⟨0, 10⟩, 5, ()⟩, ⟨⟨5, 20⟩, 1, ()⟩] ∧
    ¬ PairwiseNonOverlapping (mergeOutput mergeBugInput) := by
  decide

/-- C2 (failing input): on `mergeBugInput`, coordinate `7` is covered by
the overlapping inputs `(0..10, prio 5)` and `(0..20, prio 1)`, yet the
output contains a record of priority `1` covering coordinate `7` (in addition
to the priority-5 record): the output does not attribute the coordinate to
the strictly-higher-priority input alone. -/
theorem merge_priority_attribution_fails :
    SortedInput mergeBugInput ∧ AllNonZero mergeBugInput ∧
    (∃ i ∈ mergeBugInput, memRange 7 i.range ∧ i.priority = 5) ∧
    (∃ i ∈ mergeBugInput, memRange 7 i.range ∧ i.priority = 1) ∧
    (∃ o ∈ mergeOutput mergeBugInput, memRange 7 o.range ∧ o.priority = 1) ∧
    (∃ o ∈ mergeOutput mergeBugInput, memRange 7 o.range ∧ o.priority = 5) := by
  decide

/-! ## Compact store: encoding and decoding -/

/-- The check `create_checked` succeeds exactly on non-empty, representable lengths. -/
theorem create_checked_ok_iff (b s e v : Nat) :
    create_checked b s e = .ok v ↔ s < e ∧ e - s ≤ b ∧ v = e - s := by
  unfold create_checked
  split_ifs with h1 h2
  · simp; omega
  · simp; omega
  · simp [eq_comm]; omega

/-- The check `create_checked` fails exactly on empty or unrepresentable lengths. -/
theorem create_checked_error_iff (b s e : Nat) :
    (∃ m, create_checked b s e = .error m) ↔ e ≤ s ∨ b < e - s := by
  unfold create_checked
  split_ifs with h1 h2
  · simp; omega
  · simp; omega
  · simp; omega

/-- Successful `tryFromRest` runs are fully determined by the input list. -/
theorem tryFromRest_ok {M : Type} (ib eb : Nat) :
    ∀ (rest : List ((Nat × Nat) × M)) (cur : Nat),
      (∀ p ∈ rest, p.1.1 < p.1.2 ∧ p.1.2 - p.1.1 ≤ ib) →
      RestChain eb cur rest →
      tryFromRest ib eb cur rest =
        .ok (includedOf rest, gapsFrom cur rest, metaOf rest)
  | [], cur, _, _ => rfl
  | ((s, e), m) :: rest, cur, hlen, hchain => by
    obtain ⟨h1, h2, h3⟩ := hchain
    obtain ⟨hse, hib⟩ := hlen _ (List.mem_cons_self _ _)
    have hlen' : create_checked ib s e = .ok (e - s) :=
      (create_checked_ok_iff ib s e (e - s)).2 ⟨hse, hib, rfl⟩
    have hgap' : create_checked eb cur s = .ok (s - cur) :=
      (create_checked_ok_iff eb cur s (s - cur)).2 ⟨h1, h2, rfl⟩
    have ih := tryFromRest_ok ib eb rest e
      (fun p hp => hlen p (List.mem_cons_of_mem _ hp)) h3
    unfold tryFromRest
    rw [hlen', hgap', ih]
    rfl

/-- The loop `tryFromRest` succeeds iff all lengths and gaps are valid. -/
theorem tryFromRest_isOk_iff {M : Type} (ib eb : Nat) :
    ∀ (rest : List ((Nat × Nat) × M)) (cur : Nat),
      (∃ v, tryFromRest ib eb cur rest = .ok v) ↔
        (∀ p ∈ rest, p.1.1 < p.1.2 ∧ p.1.2 - p.1.1 ≤ ib) ∧ RestChain eb cur rest
  | [], cur => by simp [tryFromRest, RestChain]
  | ((s, e), m) :: rest, cur => by
    constructor
    · rintro ⟨v, hv⟩
      unfold tryFromRest at hv
      cases h1 : create_checked ib s e with
      | error msg => rw [h1] at hv; exact Except.noConfusion hv
      | ok len =>
        rw [h1] at hv
        cases h2 : create_checked eb cur s with
        | error msg => rw [h2] at hv; exact Except.noConfusion hv
        | ok gap =>
          rw [h2] at hv
          cases h3 : tryFromRest ib eb e rest with
          | error msg => rw [h3] at hv; exact Except.noConfusion hv
          | ok out =>
            obtain ⟨hse, hib, -⟩ := (create_checked_ok_iff ib s e len).1 h1
            obtain ⟨hc1, hc2, -⟩ := (create_checked_ok_iff eb cur s gap).1 h2
            obtain ⟨hall, hrc⟩ :=
              (tryFromRest_isOk_iff ib eb rest e).1 ⟨out, h3⟩
            refine ⟨?_, hc1, hc2, hrc⟩
            intro p hp
            rcases List.mem_cons.1 hp with h | h
            · subst h; exact ⟨hse, hib⟩
            · exact hall p h
    · rintro ⟨hall, hc1, hc2, hrc⟩
      have heq := tryFromRest_ok ib eb (((s, e), m) :: rest) cur hall ⟨hc1, hc2, hrc⟩
      exact ⟨_, heq⟩

/-- Restating `RestChain` in terms of the adjacent pairs of the list. -/
theorem restChain_iff {M : Type} (eb : Nat) :
    ∀ (rest : List ((Nat × Nat) × M)) (cur : Nat),
      RestChain eb cur rest ↔
        (match rest with
          | [] => True
          | b :: _ => cur < b.1.1 ∧ b.1.1 - cur ≤ eb) ∧
        ∀ q ∈ rest.zip rest.tail, q.1.1.2 < q.2.1.1 ∧ q.2.1.1 - q.1.1.2 ≤ eb
  | [], cur => by simp [RestChain]
  | p :: rest, cur => by
    rw [show RestChain eb cur (p :: rest) ↔
        (cur < p.1.1 ∧ p.1.1 - cur ≤ eb ∧ RestChain eb p.1.2 rest) from Iff.rfl,
      restChain_iff eb rest p.1.2]
    cases rest with
    | nil => simp
    | cons b rest' =>
      simp only [List.zip_cons_cons, List.tail_cons, List.mem_cons]
      constructor
      · rintro ⟨u1, u2, ⟨v1, v2⟩, hq⟩
        exact ⟨⟨u1, u2⟩, fun q hq' => by
          rcases hq' with h | h
          · subst h; exact ⟨v1, v2⟩
          · exact hq q h⟩
      · rintro ⟨⟨u1, u2⟩, hq⟩
        exact ⟨u1, u2, hq _ (Or.inl rfl), fun q hq' => hq q (Or.inr hq')⟩

/-- The predicate `RestChain` follows from the `Chain'` formulation plus the condition on
the first gap. -/
theorem restChain_of_chain {M : Type} (eb : Nat) :
    ∀ (rest : List ((Nat × Nat) × M)) (cur : Nat),
      (match rest with
        | [] => True
        | b :: _ => cur < b.1.1 ∧ b.1.1 - cur ≤ eb) →
      rest.Chain' (fun a b => a.1.2 < b.1.1 ∧ b.1.1 - a.1.2 ≤ eb) →
      RestChain eb cur rest
  | [], _, _, _ => trivial
  | b :: rest', cur, hh, hch => by
    refine ⟨hh.1, hh.2, ?_⟩
    cases rest' with
    | nil => trivial
    | cons c rest'' =>
      rw [List.chain'_cons] at hch
      exact restChain_of_chain eb (c :: rest'') b.1.2 ⟨hch.1.1, hch.1.2⟩ hch.2

/-- Definitional unfolding of `try_from_ordered_iter` on a non-empty list. -/
theorem try_from_ordered_iter_cons {M : Type} (ib eb s e : Nat) (m : M)
    (rest : List ((Nat × Nat) × M)) :
    try_from_ordered_iter ib eb (((s, e), m) :: rest) =
      (do
        let len ← create_checked ib s e
        let (incl, excl, ms) ← tryFromRest ib eb e rest
        Except.ok ⟨s, len :: incl, excl, m :: ms⟩) := rfl

/-- C5: `try_from_ordered_iter` returns a recoverable error value (the
model is a total function into `Except`) if and only if the input is empty,
some interval has `end <= start`, some gap is non-positive, or some computed
length or gap does not fit in the narrow target type (bounds `ib`, `eb`). -/
theorem encode_error_iff {M : Type} (ib eb : Nat) (l : List ((Nat × Nat) × M)) :
    (∃ msg, try_from_ordered_iter ib eb l = .error msg) ↔
      EncodeFailureCondition ib eb l := by
  cases l with
  | nil =>
    constructor
    · intro _; exact Or.inl rfl
    · intro _; exact ⟨"Requires at least one item", rfl⟩
  | cons x rest =>
    obtain ⟨⟨s, e⟩, m⟩ := x
    have key : (∃ v, try_from_ordered_iter ib eb (((s, e), m) :: rest) = .ok v) ↔
        (s < e ∧ e - s ≤ ib) ∧
          (∀ p ∈ rest, p.1.1 < p.1.2 ∧ p.1.2 - p.1.1 ≤ ib) ∧
          RestChain eb e rest := by
      constructor
      · rintro ⟨v, hv⟩
        rw [try_from_ordered_iter_cons] at hv
        cases h1 : create_checked ib s e with
        | error msg => rw [h1] at hv; exact Except.noConfusion hv
        | ok len =>
          rw [h1] at hv
          cases h2 : tryFromRest ib eb e rest with
          | error msg => rw [h2] at hv; exact Except.noConfusion hv
          | ok out =>
            obtain ⟨hse, hib, -⟩ := (create_checked_ok_iff ib s e len).1 h1
            obtain ⟨hall, hrc⟩ := (tryFromRest_isOk_iff ib eb rest e).1 ⟨out, h2⟩
            exact ⟨⟨hse, hib⟩, hall, hrc⟩
      · rintro ⟨⟨hse, hib⟩, hall, hrc⟩
        have h1 : create_checked ib s e = .ok (e - s) :=
          (create_checked_ok_iff ib s e (e - s)).2 ⟨hse, hib, rfl⟩
        have h2 := tryFromRest_ok ib eb rest e hall hrc
        have heq : try_from_ordered_iter ib eb (((s, e), m) :: rest) =
            .ok ⟨s, (e - s) :: includedOf rest, gapsFrom e rest, m :: metaOf rest⟩ := by
          rw [try_from_ordered_iter_cons, h1, h2]
          rfl
        exact ⟨_, heq⟩
    have dich : (∃ msg, try_from_ordered_iter ib eb (((s, e), m) :: rest) = .error msg) ↔
        ¬ (∃ v, try_from_ordered_iter ib eb (((s, e), m) :: rest) = .ok v) := by
      cases h : try_from_ordered_iter ib eb (((s, e), m) :: rest) with
      | error msg => simp
      | ok v => simp
    rw [dich, key]
    unfold EncodeFailureCondition
    rw [restChain_iff]
    cases rest with
    | nil =>
      simp [RestChain]
      omega
    | cons b rest' =>
      constructor
      · intro h
        by_cases hx : s < e ∧ e - s ≤ ib
        · by_cases hall : ∀ p ∈ b :: rest', p.1.1 < p.1.2 ∧ p.1.2 - p.1.1 ≤ ib
          · have hrc : ¬ ((e < b.1.1 ∧ b.1.1 - e ≤ eb) ∧
                ∀ q ∈ (b :: rest').zip (b :: rest').tail,
                  q.1.1.2 < q.2.1.1 ∧ q.2.1.1 - q.1.1.2 ≤ eb) := by
              intro hc
              exact h ⟨hx, hall, hc⟩
            push_neg at hrc
            by_cases hhead : e < b.1.1 ∧ b.1.1 - e ≤ eb
            · obtain ⟨q, hq, hbad⟩ := hrc hhead
              refine Or.inr (Or.inr ⟨q, ?_, by omega⟩)
              simpa using Or.inr hq
            · push_neg at hhead
              refine Or.inr (Or.inr ⟨(((s, e), m), b), by simp, ?_⟩)
              rcases Nat.lt_or_ge e b.1.1 with hh | hh
              · exact Or.inr (by simpa using hhead hh)
              · exact Or.inl (by simpa using hh)
          · push_neg at hall
            obtain ⟨p, hp, hbad⟩ := hall
            refine Or.inr (Or.inl ⟨p, List.mem_cons_of_mem _ hp, ?_⟩)
            rcases Nat.lt_or_ge p.1.1 p.1.2 with hh | hh
            · exact Or.inr (hbad hh)
            · exact Or.inl (by omega)
        · push_neg at hx
          refine Or.inr (Or.inl ⟨((s, e), m), List.mem_cons_self _ _, ?_⟩)
          rcases Nat.lt_or_ge s e with hh | hh
          · exact Or.inr (by simpa using hx hh)
          · exact Or.inl (by simpa using hh)
      · rintro (h | h | h)
        · exact absurd h (by simp)
        · rintro ⟨⟨h1, h2⟩, hall, -⟩
          obtain ⟨p, hp, hbad⟩ := h
          rcases List.mem_cons.1 hp with hh | hh
          · subst hh; simp only at hbad; omega
          · obtain ⟨u1, u2⟩ := hall p hh
            omega
        · rintro ⟨⟨h1, h2⟩, -, ⟨v1, v2⟩, hrest⟩
          obtain ⟨q, hq, hbad⟩ := h
          simp only [List.tail_cons, List.zip_cons_cons, List.mem_cons] at hq
          rcases hq with hh | hh
          · subst hh; simp only at hbad; omega
          · obtain ⟨w1, w2⟩ := hrest q hh
            omega

/-- Running the decoding iterator on an exhausted `include` slice yields
nothing, for any fuel. -/
theorem rangeIterRun_nil {M : Type} (excl : List Nat) (ms : List M) (off fuel : Nat) :
    rangeIterRun fuel (⟨[], excl, ms, off⟩ : OrderedRangeIterState M) = .ok [] := by
  cases fuel with
  | zero => rfl
  | succ n => rfl

/-- Decoding the arrays produced from a weakly sorted list reproduces the
list (cumulative-offset reconstruction). -/
theorem rangeIterRun_of_list {M : Type} :
    ∀ (l : List ((Nat × Nat) × M)) (k : Nat),
      (∀ p ∈ l, p.1.1 ≤ p.1.2) →
      l.Chain' (fun a b => a.1.2 ≤ b.1.1) →
      rangeIterRun (l.length + k) ⟨includedOf l, gapsL l, metaOf l, offsetOf l⟩ =
        .ok (l.map fun p => (⟨p.1.1, p.1.2⟩, p.2))
  | [], k, _, _ => rangeIterRun_nil [] [] 0 (0 + k)
  | ((s, e), m) :: rest, k, hle, hch => by
    have hse : s ≤ e := (hle _ (List.mem_cons_self _ _))
    have he : s + (e - s) = e := by omega
    have hfuel : (((s, e), m) :: rest).length + k = (rest.length + k) + 1 := by
      simp [List.length_cons]; omega
    rw [hfuel]
    cases rest with
    | nil =>
      show Except.map _ (rangeIterRun (0 + k) ⟨[], [], [], s⟩) = _
      rw [rangeIterRun_nil]
      simp [Except.map, offsetOf]
      omega
    | cons b rest' =>
      have hrel : e ≤ b.1.1 ∧ (b :: rest').Chain' (fun a b => a.1.2 ≤ b.1.1) := by
        rw [List.chain'_cons] at hch
        exact ⟨hch.1, hch.2⟩
      have hoff : s + (e - s) + (b.1.1 - e) = b.1.1 := by omega
      have ih := rangeIterRun_of_list (b :: rest') k
        (fun p hp => hle p (List.mem_cons_of_mem _ hp)) hrel.2
      show Except.map _ (rangeIterRun ((b :: rest').length + k)
          ⟨includedOf (b :: rest'), gapsFrom b.1.2 rest',
            metaOf (b :: rest'), s + (e - s) + (b.1.1 - e)⟩) = _
      rw [hoff]
      have : gapsL (b :: rest') = gapsFrom b.1.2 rest' := rfl
      rw [← this]
      have : offsetOf (b :: rest') = b.1.1 := rfl
      rw [← this]
      rw [ih]
      simp [Except.map, offsetOf]
      omega

/-- C4: encoding a valid (non-empty, sorted, strictly gap-separated,
representable) sequence succeeds, and decoding the resulting store yields
exactly the original ranges and metadata, in order. -/
theorem encode_decode_roundtrip {M : Type} (ib eb : Nat)
    (l : List ((Nat × Nat) × M)) (h : ValidEncodeInput ib eb l) :
    ∃ store, try_from_ordered_iter ib eb l = .ok store ∧
      decode store = .ok (l.map fun p => (⟨p.1.1, p.1.2⟩, p.2)) := by
  obtain ⟨hne, hall, hch⟩ := h
  cases l with
  | nil => exact absurd rfl hne
  | cons x rest =>
    obtain ⟨⟨s, e⟩, m⟩ := x
    obtain ⟨hse, hib⟩ := hall _ (List.mem_cons_self _ _)
    have hrc : RestChain eb e rest := by
      cases rest with
      | nil => trivial
      | cons b rest' =>
        rw [List.chain'_cons] at hch
        exact restChain_of_chain eb (b :: rest') e ⟨hch.1.1, hch.1.2⟩ hch.2
    have h1 : create_checked ib s e = .ok (e - s) :=
      (create_checked_ok_iff ib s e (e - s)).2 ⟨hse, hib, rfl⟩
    have h2 := tryFromRest_ok ib eb rest e
      (fun p hp => hall p (List.mem_cons_of_mem _ hp)) hrc
    have heq : try_from_ordered_iter ib eb (((s, e), m) :: rest) =
        .ok ⟨s, (e - s) :: includedOf rest, gapsFrom e rest, m :: metaOf rest⟩ := by
      rw [try_from_ordered_iter_cons, h1, h2]
      rfl
    refine ⟨_, heq, ?_⟩
    have hlen : ((e - s) :: includedOf rest).length = (((s, e), m) :: rest).length := by
      simp [includedOf]
    show rangeIterRun ((e - s) :: includedOf rest).length
        ⟨(e - s) :: includedOf rest, gapsFrom e rest, m :: metaOf rest, s⟩ = _
    rw [hlen]
    have hst : (⟨(e - s) :: includedOf rest, gapsFrom e rest, m :: metaOf rest, s⟩ :
        OrderedRangeIterState M) =
        ⟨includedOf (((s, e), m) :: rest), gapsL (((s, e), m) :: rest),
          metaOf (((s, e), m) :: rest), offsetOf (((s, e), m) :: rest)⟩ := rfl
    rw [hst, show (((s, e), m) :: rest).length = (((s, e), m) :: rest).length + 0 from rfl]
    exact rangeIterRun_of_list (((s, e), m) :: rest) 0
      (fun p hp => le_of_lt (hall p hp).1)
      (List.Chain'.imp (fun a b hab => le_of_lt hab.1) hch)

/-- Witness for `encode_decode_roundtrip`: the `range_with_initial_offset`
unit test, `[(10..20, 0), (255..257, 1)]` into `u8`-bounded arrays. -/
theorem encode_decode_roundtrip_witness :
    ∃ store, try_from_ordered_iter 255 255 [((10, 20), 0), ((255, 257), 1)] = .ok store ∧
      decode store = .ok ([((10, 20), 0), ((255, 257), 1)].map
        fun p => (⟨p.1.1, p.1.2⟩, p.2)) :=
  encode_decode_roundtrip 255 255 [((10, 20), 0), ((255, 257), 1)]
    ⟨by simp, by simp, by simp [List.chain'_cons]⟩

/-- Lengths and positivity of the arrays a successful `tryFromRest` builds. -/
theorem tryFromRest_invariants {M : Type} (ib eb : Nat) :
    ∀ (rest : List ((Nat × Nat) × M)) (cur : Nat)
      (incl excl : List Nat) (ms : List M),
      tryFromRest ib eb cur rest = .ok (incl, excl, ms) →
      incl.length = ms.length ∧ incl.length = excl.length ∧
        (∀ i ∈ incl, 0 < i) ∧ ∀ g ∈ excl, 0 < g
  | [], cur, incl, excl, ms, h => by
    have : incl = [] ∧ excl = [] ∧ ms = [] := by
      have h' : Except.ok (([], [], []) : List Nat × List Nat × List M) =
          .ok (incl, excl, ms) := h
      cases h'
      exact ⟨rfl, rfl, rfl⟩
    obtain ⟨h1, h2, h3⟩ := this
    subst h1; subst h2; subst h3
    simp
  | ((s, e), m) :: rest, cur, incl, excl, ms, h => by
    rw [show tryFromRest ib eb cur (((s, e), m) :: rest) =
        (do
          let len ← create_checked ib s e
          let gap ← create_checked eb cur s
          let (incl, excl, ms) ← tryFromRest ib eb e rest
          Except.ok (len :: incl, gap :: excl, m :: ms)) from rfl] at h
    cases h1 : create_checked ib s e with
    | error msg => rw [h1] at h; exact Except.noConfusion h
    | ok len =>
      rw [h1] at h
      cases h2 : create_checked eb cur s with
      | error msg => rw [h2] at h; exact Except.noConfusion h
      | ok gap =>
        rw [h2] at h
        cases h3 : tryFromRest ib eb e rest with
        | error msg => rw [h3] at h; exact Except.noConfusion h
        | ok out =>
          obtain ⟨incl', excl', ms'⟩ := out
          rw [h3] at h
          have h' : Except.ok ((len :: incl', gap :: excl', m :: ms') :
              List Nat × List Nat × List M) = .ok (incl, excl, ms) := h
          cases h'
          obtain ⟨u1, u2, u3, u4⟩ := tryFromRest_invariants ib eb rest e incl' excl' ms' h3
          obtain ⟨hse, -, hlen⟩ := (create_checked_ok_iff ib s e len).1 h1
          obtain ⟨hcs, -, hgap⟩ := (create_checked_ok_iff eb cur s gap).1 h2
          refine ⟨by simp [u1], by simp [u2], ?_, ?_⟩
          · intro i hi
            rcases List.mem_cons.1 hi with hh | hh
            · subst hh; omega
            · exact u3 i hh
          · intro g hg
            rcases List.mem_cons.1 hg with hh | hh
            · subst hh; omega
            · exact u4 g hh

/-- C6: every store successfully constructed by `try_from_ordered_iter`
satisfies the compact-store invariants:
`included.len() == meta.len() == excluded.len() + 1`, every `included[i] > 0`
and every `excluded[i] > 0`. -/
theorem store_invariants {M : Type} (ib eb : Nat) (l : List ((Nat × Nat) × M))
    (store : NonEmptyOrderedRanges M)
    (h : try_from_ordered_iter ib eb l = .ok store) :
    store.included.length = store.meta.length ∧
      store.meta.length = store.excluded.length + 1 ∧
      (∀ i ∈ store.included, 0 < i) ∧ ∀ g ∈ store.excluded, 0 < g := by
  cases l with
  | nil => exact Except.noConfusion h
  | cons x rest =>
    obtain ⟨⟨s, e⟩, m⟩ := x
    rw [try_from_ordered_iter_cons] at h
    cases h1 : create_checked ib s e with
    | error msg => rw [h1] at h; exact Except.noConfusion h
    | ok len =>
      rw [h1] at h
      cases h2 : tryFromRest ib eb e rest with
      | error msg => rw [h2] at h; exact Except.noConfusion h
      | ok out =>
        obtain ⟨incl', excl', ms'⟩ := out
        rw [h2] at h
        have h' : Except.ok (⟨s, len :: incl', excl', m :: ms'⟩ :
            NonEmptyOrderedRanges M) = .ok store := h
        cases h'
        obtain ⟨u1, u2, u3, u4⟩ :=
          tryFromRest_invariants ib eb rest e incl' excl' ms' h2
        obtain ⟨hse, -, hlen⟩ := (create_checked_ok_iff ib s e len).1 h1
        refine ⟨by simp [u1], by simp [← u2, u1], ?_, u4⟩
        intro i hi
        rcases List.mem_cons.1 hi with hh | hh
        · subst hh; omega
        · exact u3 i hh

/-- Witness for `store_invariants`: the encoded test store
`initial_offset = 10, included = [10, 2], excluded = [235]`. -/
theorem store_invariants_witness :
    (⟨10, [10, 2], [235], [0, 1]⟩ : NonEmptyOrderedRanges Nat).included.length =
        (⟨10, [10, 2], [235], [0, 1]⟩ : NonEmptyOrderedRanges Nat).meta.length ∧
      (⟨10, [10, 2], [235], [0, 1]⟩ : NonEmptyOrderedRanges Nat).meta.length =
        (⟨10, [10, 2], [235], [0, 1]⟩ : NonEmptyOrderedRanges Nat).excluded.length + 1 ∧
      (∀ i ∈ (⟨10, [10, 2], [235], [0, 1]⟩ : NonEmptyOrderedRanges Nat).included, 0 < i) ∧
      ∀ g ∈ (⟨10, [10, 2], [235], [0, 1]⟩ : NonEmptyOrderedRanges Nat).excluded, 0 < g :=
  store_invariants 255 255 [((10, 20), 0), ((255, 257), 1)] ⟨10, [10, 2], [235], [0, 1]⟩
    (by rfl)

/-- The decoding iterator is total on well-formed arrays: with as many
metadata entries as lengths and all lengths positive, any sufficient fuel
produces exactly one non-empty range per length, and the `unreachable!`
branch is never taken. -/
theorem rangeIterRun_total {M : Type} :
    ∀ (inc excl : List Nat) (ms : List M) (off k : Nat),
      inc.length = ms.length → (∀ i ∈ inc, 0 < i) →
      ∃ out, rangeIterRun (inc.length + k) ⟨inc, excl, ms, off⟩ = .ok out ∧
        out.length = inc.length ∧ ∀ p ∈ out, p.1.start < p.1.stop
  | [], excl, ms, off, k, _, _ => by
    refine ⟨[], ?_, rfl, by simp⟩
    rw [rangeIterRun_nil]
  | inc :: restI, excl, ms, off, k, hlen, hpos => by
    cases ms with
    | nil => exact absurd hlen (by simp)
    | cons m restM =>
      have hfuel : (inc :: restI).length + k = (restI.length + k) + 1 := by
        simp [List.length_cons]; omega
      rw [hfuel]
      have hlen' : restI.length = restM.length := by
        simpa using hlen
      have hpos' : ∀ i ∈ restI, 0 < i :=
        fun i hi => hpos i (List.mem_cons_of_mem _ hi)
      have hinc : 0 < inc := hpos inc (List.mem_cons_self _ _)
      cases excl with
      | nil =>
        obtain ⟨out, hout, holen, honz⟩ :=
          rangeIterRun_total restI [] restM off k hlen' hpos'
        refine ⟨(⟨off, off + inc⟩, m) :: out, ?_, by simp [holen], ?_⟩
        · show Except.map _ (rangeIterRun (restI.length + k) ⟨restI, [], restM, off⟩) = _
          rw [hout]
          rfl
        · intro p hp
          rcases List.mem_cons.1 hp with hh | hh
          · subst hh; simp; omega
          · exact honz p hh
      | cons ex restE =>
        obtain ⟨out, hout, holen, honz⟩ :=
          rangeIterRun_total restI restE restM (off + inc + ex) k hlen' hpos'
        refine ⟨(⟨off, off + inc⟩, m) :: out, ?_, by simp [holen], ?_⟩
        · show Except.map _ (rangeIterRun (restI.length + k)
              ⟨restI, restE, restM, off + inc + ex⟩) = _
          rw [hout]
          rfl
        · intro p hp
          rcases List.mem_cons.1 hp with hh | hh
          · subst hh; simp; omega
          · exact honz p hh

/-- C7: for every store whose arrays satisfy
`included.len() == meta.len()` and `included[i] > 0` (as `try_from_ordered_iter`
establishes), decoding never reaches the `unreachable!` branch, is total,
yields exactly `included.len()` items, and every range built by the unchecked
constructor satisfies `start < end`. -/
theorem decode_total {M : Type} (store : NonEmptyOrderedRanges M)
    (hlen : store.included.length = store.meta.length)
    (hpos : ∀ i ∈ store.included, 0 < i) :
    ∃ out, decode store = .ok out ∧ out.length = store.included.length ∧
      ∀ p ∈ out, p.1.start < p.1.stop := by
  have := rangeIterRun_total store.included store.excluded store.meta
    store.initial_offset 0 hlen hpos
  simpa [decode, NonEmptyOrderedRanges.iter] using this

/-- Witness for `decode_total` at the encoded test store. -/
theorem decode_total_witness :
    ∃ out, decode (⟨10, [10, 2], [235], [0, 1]⟩ : NonEmptyOrderedRanges Nat) = .ok out ∧
      out.length = (⟨10, [10, 2], [235], [0, 1]⟩ : NonEmptyOrderedRanges Nat).included.length ∧
      ∀ p ∈ out, p.1.start < p.1.stop :=
  decode_total ⟨10, [10, 2], [235], [0, 1]⟩ (by rfl) (by decide)

/-! ## Merge engine: emitted ranges are never empty (C8) -/

/-- Every element of the buffer `insertRemAux` builds has a non-empty range,
provided the scanned buffer, the accumulated suffix and the new item do:
truncated and split pieces only enter through `tryFromRange`. -/
theorem insertRemAux_nonzero {M : Type} :
    ∀ (rev : List (OrderedRangeItem M)) (new : OrderedRangeItem M)
      (back : List (OrderedRangeItem M)),
      (∀ y ∈ rev, y.range.start < y.range.stop) →
      new.range.start < new.range.stop →
      (∀ y ∈ back, y.range.start < y.range.stop) →
      ∀ y ∈ insertRemAux rev new back, y.range.start < y.range.stop
  | [], new, back, _, hnew, hback => by
    intro y hy
    rcases List.mem_cons.1 hy with h | h
    · subst h; exact hnew
    · exact hback y h
  | existing :: revRest, new, back, hrev, hnew, hback => by
    have hrev' : ∀ y ∈ revRest, y.range.start < y.range.stop :=
      fun y hy => hrev y (List.mem_cons_of_mem _ hy)
    unfold insertRemAux
    split_ifs with h1 h2
    · intro y hy
      rcases List.mem_append.1 hy with h | h
      · exact hrev y (List.mem_reverse.1 h)
      · rcases List.mem_cons.1 h with h | h
        · subst h; exact hnew
        · exact hback y h
    · cases ht : tryFromRange existing.range.stop new.range.stop with
      | ok r =>
        obtain ⟨hlt, hr⟩ := (tryFromRange_ok_iff _ _ r).1 ht
        intro y hy
        rcases List.mem_append.1 hy with h | h
        · exact hrev y (List.mem_reverse.1 h)
        · rcases List.mem_cons.1 h with h | h
          · subst h; simp only [hr]; exact hlt
          · exact hback y h
      | error p =>
        intro y hy
        rcases List.mem_append.1 hy with h | h
        · exact hrev y (List.mem_reverse.1 h)
        · exact hback y h
    · cases hb : tryFromRange existing.range.start new.range.start with
      | ok before =>
        obtain ⟨hltb, hrb⟩ := (tryFromRange_ok_iff _ _ before).1 hb
        cases ha : tryFromRange new.range.stop existing.range.stop with
        | ok after =>
          obtain ⟨hlta, hra⟩ := (tryFromRange_ok_iff _ _ after).1 ha
          intro y hy
          rcases List.mem_append.1 hy with h | h
          · exact hrev' y (List.mem_reverse.1 h)
          · rcases List.mem_cons.1 h with h | h
            · subst h; simp only [hrb]; exact hltb
            · rcases List.mem_cons.1 h with h | h
              · subst h; exact hnew
              · rcases List.mem_cons.1 h with h | h
                · subst h; simp only [hra]; exact hlta
                · exact hback y h
        | error p =>
          intro y hy
          rcases List.mem_append.1 hy with h | h
          · exact hrev' y (List.mem_reverse.1 h)
          · rcases List.mem_cons.1 h with h | h
            · subst h; simp only [hrb]; exact hltb
            · rcases List.mem_cons.1 h with h | h
              · subst h; exact hnew
              · exact hback y h
      | error p =>
        cases ha : tryFromRange new.range.stop existing.range.stop with
        | ok after =>
          obtain ⟨hlta, hra⟩ := (tryFromRange_ok_iff _ _ after).1 ha
          refine insertRemAux_nonzero revRest new _ hrev' hnew ?_
          intro y hy
          rcases List.mem_cons.1 hy with h | h
          · subst h; simp only [hra]; exact hlta
          · exact hback y h
        | error p' =>
          exact insertRemAux_nonzero revRest new back hrev' hnew hback

/-- Rust `insert_remainer` preserves non-emptiness of all buffered ranges. -/
theorem insert_remainer_nonzero {M : Type}
    (l : List (OrderedRangeItem M)) (new : OrderedRangeItem M)
    (hl : ∀ y ∈ l, y.range.start < y.range.stop)
    (hnew : new.range.start < new.range.stop) :
    ∀ y ∈ insert_remainer l new, y.range.start < y.range.stop :=
  insertRemAux_nonzero l.reverse new []
    (fun y hy => hl y (List.mem_reverse.1 hy)) hnew (by simp)

/-- Definitional unfolding of `mergeLoop` on a non-empty input. -/
theorem mergeLoop_cons {M : Type} (fe : Option Nat)
    (next : OrderedRangeItem M) (rest rem : List (OrderedRangeItem M)) (ms : Nat) :
    mergeLoop fe (next :: rest) rem ms =
      if fe.getD next.range.stop < next.range.start then
        (rest, insert_remainer rem next, next.range.start)
      else
        mergeLoop (some (fe.getD next.range.stop)) rest
          (insert_remainer rem next) next.range.start := rfl

/-- Definitional unfolding of `mergeNext` (buffer empty / non-empty). -/
theorem mergeNext_nil {M : Type} (it : List (OrderedRangeItem M)) (ms : Nat) :
    mergeNext ⟨it, [], ms⟩ =
      (match mergeLoop none it [] ms with
        | (it', [], ms') => (none, ⟨it', [], ms'⟩)
        | (it', f :: r, ms') => (some f, ⟨it', r, ms'⟩)) := rfl

/-- Definitional unfolding of `mergeNext` on a non-empty buffer. -/
theorem mergeNext_cons {M : Type} (it : List (OrderedRangeItem M))
    (smallest : OrderedRangeItem M) (restRem : List (OrderedRangeItem M)) (ms : Nat) :
    mergeNext ⟨it, smallest :: restRem, ms⟩ =
      if smallest.range.stop < ms then
        (some smallest, ⟨it, restRem, ms⟩)
      else
        (match mergeLoop (some smallest.range.stop) it (smallest :: restRem) ms with
          | (it', [], ms') => (none, ⟨it', [], ms'⟩)
          | (it', f :: r, ms') => (some f, ⟨it', r, ms'⟩)) := rfl

/-- The loop `mergeLoop` preserves non-emptiness of the pending input and the buffer. -/
theorem mergeLoop_nonzero {M : Type} :
    ∀ (fe : Option Nat) (iter rem : List (OrderedRangeItem M)) (ms : Nat),
      (∀ y ∈ iter, y.range.start < y.range.stop) →
      (∀ y ∈ rem, y.range.start < y.range.stop) →
      (∀ y ∈ (mergeLoop fe iter rem ms).1, y.range.start < y.range.stop) ∧
        ∀ y ∈ (mergeLoop fe iter rem ms).2.1, y.range.start < y.range.stop
  | fe, [], rem, ms, _, hrem => ⟨by simp [mergeLoop], by simpa [mergeLoop] using hrem⟩
  | fe, next :: rest, rem, ms, hit, hrem => by
    have hnext := hit next (List.mem_cons_self _ _)
    have hit' : ∀ y ∈ rest, y.range.start < y.range.stop :=
      fun y hy => hit y (List.mem_cons_of_mem _ hy)
    have hrem' := insert_remainer_nonzero rem next hrem hnext
    rw [mergeLoop_cons]
    split_ifs with h
    · exact ⟨hit', hrem'⟩
    · exact mergeLoop_nonzero (some _) rest (insert_remainer rem next)
        next.range.start hit' hrem'

/-- A produced item of `mergeNext` and the residual state stay non-empty. -/
theorem mergeNext_nonzero {M : Type}
    (sit srem : List (OrderedRangeItem M)) (sms : Nat)
    (x : OrderedRangeItem M) (s' : MergeState M)
    (hit : forall y, y ∈ sit → y.range.start < y.range.stop)
    (hrem : forall y, y ∈ srem → y.range.start < y.range.stop)
    (h : mergeNext ⟨sit, srem, sms⟩ = (some x, s')) :
    x.range.start < x.range.stop ∧
      (∀ y ∈ s'.iter, y.range.start < y.range.stop) ∧
      ∀ y ∈ s'.remainers, y.range.start < y.range.stop := by
  cases srem with
  | cons smallest restRem =>
    have hsm := hrem smallest (List.mem_cons_self _ _)
    have hrest : ∀ y ∈ restRem, y.range.start < y.range.stop :=
      fun y hy => hrem y (List.mem_cons_of_mem _ hy)
    rw [mergeNext_cons] at h
    split_ifs at h with hpop
    · have h' : (some smallest, (⟨sit, restRem, sms⟩ : MergeState M)) = (some x, s') := h
      injection h' with h1 h2
      injection h1 with h1
      subst h1
      subst h2
      exact ⟨hsm, hit, hrest⟩
    · obtain ⟨hitL, hremL⟩ := mergeLoop_nonzero (some smallest.range.stop)
        sit (smallest :: restRem) sms hit hrem
      cases hml : mergeLoop (some smallest.range.stop) sit (smallest :: restRem) sms with
      | mk it2 rest2 =>
        obtain ⟨rem2, ms2⟩ := rest2
        rw [hml] at h hitL hremL
        cases rem2 with
        | nil =>
          have h' : ((none : Option (OrderedRangeItem M)),
              (⟨it2, [], ms2⟩ : MergeState M)) = (some x, s') := h
          injection h' with h1 h2
          exact Option.noConfusion h1
        | cons f r =>
          have h' : (some f, (⟨it2, r, ms2⟩ : MergeState M)) = (some x, s') := h
          injection h' with h1 h2
          injection h1 with h1
          subst h1
          subst h2
          exact ⟨hremL f (List.mem_cons_self _ _), hitL,
            fun y hy => hremL y (List.mem_cons_of_mem _ hy)⟩
  | nil =>
    rw [mergeNext_nil] at h
    obtain ⟨hitL, hremL⟩ := mergeLoop_nonzero none sit [] sms hit (by simp)
    cases hml : mergeLoop none sit [] sms with
    | mk it2 rest2 =>
      obtain ⟨rem2, ms2⟩ := rest2
      rw [hml] at h hitL hremL
      cases rem2 with
      | nil =>
        have h' : ((none : Option (OrderedRangeItem M)),
            (⟨it2, [], ms2⟩ : MergeState M)) = (some x, s') := h
        injection h' with h1 h2
        exact Option.noConfusion h1
      | cons f r =>
        have h' : (some f, (⟨it2, r, ms2⟩ : MergeState M)) = (some x, s') := h
        injection h' with h1 h2
        injection h1 with h1
        subst h1
        subst h2
        exact ⟨hremL f (List.mem_cons_self _ _), hitL,
          fun y hy => hremL y (List.mem_cons_of_mem _ hy)⟩

/-- All items a bounded run of `next` emits have non-empty ranges. -/
theorem mergeAllFuel_nonzero {M : Type} :
    ∀ (fuel : Nat) (s : MergeState M),
      (∀ y ∈ s.iter, y.range.start < y.range.stop) →
      (∀ y ∈ s.remainers, y.range.start < y.range.stop) →
      ∀ y ∈ mergeAllFuel fuel s, y.range.start < y.range.stop
  | 0, s, _, _ => by simp [mergeAllFuel]
  | fuel + 1, s, hit, hrem => by
    unfold mergeAllFuel
    cases hmn : mergeNext s with
    | mk ox s' =>
      cases ox with
      | none => simp
      | some x =>
        obtain ⟨hx, hit', hrem'⟩ := mergeNext_nonzero s.iter s.remainers s.max_start x s' hit hrem (by rw [← hmn])
        intro y hy
        rcases List.mem_cons.1 hy with h | h
        · subst h; exact hx
        · exact mergeAllFuel_nonzero fuel s' hit' hrem' y h

/-- C8: on a sorted input all of whose ranges are non-empty, every record
the merge engine emits has a non-empty range (`start < end`): zero-width
remainders are never produced. -/
theorem merge_output_nonzero {M : Type} (l : List (OrderedRangeItem M))
    (hs : SortedInput l) (hnz : AllNonZero l) : AllNonZero (mergeOutput l) :=
  fun y hy =>
    mergeAllFuel_nonzero (mergeFuel ⟨l, [], 0⟩) ⟨l, [], 0⟩ hnz (by simp) y hy

/-- Witness for `merge_output_nonzero`: the `priority_overlaps_before` test
input. -/
theorem merge_output_nonzero_witness :
    AllNonZero (mergeOutput
      [⟨⟨0, 10⟩, 1, ()⟩, (⟨⟨5, 15⟩, 0, ()⟩ : OrderedRangeItem Unit)]) :=
  merge_output_nonzero _ (by decide) (by decide)

/-! ## Merge engine: termination measure and fuel sufficiency -/

/-- One insertion grows the buffer by at most two entries. -/
theorem insertRemAux_length {M : Type} :
    ∀ (rev : List (OrderedRangeItem M)) (new : OrderedRangeItem M)
      (back : List (OrderedRangeItem M)),
      (insertRemAux rev new back).length ≤ rev.length + back.length + 2
  | [], new, back => by simp [insertRemAux]
  | existing :: revRest, new, back => by
    unfold insertRemAux
    split_ifs with h1 h2
    · simp; omega
    · cases ht : tryFromRange existing.range.stop new.range.stop with
      | ok r => simp; omega
      | error p => simp; omega
    · cases hb : tryFromRange existing.range.start new.range.start with
      | ok before =>
        cases ha : tryFromRange new.range.stop existing.range.stop with
        | ok after => simp; omega
        | error p => simp; omega
      | error p =>
        cases ha : tryFromRange new.range.stop existing.range.stop with
        | ok after =>
          have := insertRemAux_length revRest new
            ({ existing with range := after } :: back)
          simp at this ⊢
          omega
        | error p' =>
          have := insertRemAux_length revRest new back
          simp at this ⊢
          omega

/-- The buffer after `insert_remainer` has at most two more entries. -/
theorem insert_remainer_length {M : Type} (l : List (OrderedRangeItem M))
    (new : OrderedRangeItem M) :
    (insert_remainer l new).length ≤ l.length + 2 := by
  have := insertRemAux_length l.reverse new []
  simpa [insert_remainer] using this

/-- The buffer `insert_remainer` produces is never empty. -/
theorem insertRemAux_ne_nil {M : Type} :
    ∀ (rev : List (OrderedRangeItem M)) (new : OrderedRangeItem M)
      (back : List (OrderedRangeItem M)),
      insertRemAux rev new back ≠ []
  | [], new, back => by simp [insertRemAux]
  | existing :: revRest, new, back => by
    unfold insertRemAux
    split_ifs with h1 h2
    · simp
    · cases ht : tryFromRange existing.range.stop new.range.stop with
      | ok r => simp
      | error p => simp
    · cases hb : tryFromRange existing.range.start new.range.start with
      | ok before =>
        cases ha : tryFromRange new.range.stop existing.range.stop with
        | ok after => simp
        | error p => simp
      | error p =>
        cases ha : tryFromRange new.range.stop existing.range.stop with
        | ok after => exact insertRemAux_ne_nil revRest new _
        | error p' => exact insertRemAux_ne_nil revRest new back

/-- Running `mergeLoop` on an exhausted input is the identity. -/
theorem mergeLoop_nil {M : Type} (fe : Option Nat)
    (rem : List (OrderedRangeItem M)) (ms : Nat) :
    mergeLoop fe [] rem ms = ([], rem, ms) := rfl

/-- Each consumed input item decreases `3 * |iter| + |rem|` by at least one
(the buffer grows by at most two per consumed item). -/
theorem mergeLoop_measure {M : Type} :
    ∀ (fe : Option Nat) (iter rem : List (OrderedRangeItem M)) (ms : Nat),
      iter ≠ [] →
      3 * (mergeLoop fe iter rem ms).1.length +
          (mergeLoop fe iter rem ms).2.1.length + 1 ≤
        3 * iter.length + rem.length
  | fe, [], rem, ms, h => absurd rfl h
  | fe, next :: rest, rem, ms, _ => by
    rw [mergeLoop_cons]
    have hins := insert_remainer_length rem next
    split_ifs with h
    · simp
      omega
    · by_cases hrest : rest = []
      · subst hrest
        rw [mergeLoop_nil]
        simp
        omega
      · have := mergeLoop_measure (some (fe.getD next.range.stop)) rest
          (insert_remainer rem next) next.range.start hrest
        simp only [List.length_cons] at this ⊢
        omega

/-- If `mergeLoop` empties the buffer then nothing was buffered and nothing
was pending. -/
theorem mergeLoop_eq_nil {M : Type} :
    ∀ (fe : Option Nat) (iter rem : List (OrderedRangeItem M)) (ms : Nat),
      (mergeLoop fe iter rem ms).2.1 = [] → iter = [] ∧ rem = []
  | fe, [], rem, ms, h => ⟨rfl, h⟩
  | fe, next :: rest, rem, ms, h => by
    rw [mergeLoop_cons] at h
    split_ifs at h with hcmp
    · exact absurd h (insertRemAux_ne_nil _ _ _)
    · obtain ⟨h1, h2⟩ := mergeLoop_eq_nil _ rest (insert_remainer rem next) _ h
      exact absurd h2 (insertRemAux_ne_nil _ _ _)

/-- The step `mergeNext` reports exhaustion only in the truly empty state. -/
theorem mergeNext_none {M : Type} (s s' : MergeState M)
    (h : mergeNext s = (none, s')) : s.remainers = [] ∧ s.iter = [] := by
  obtain ⟨sit, srem, sms⟩ := s
  cases hsrem : srem with
  | cons smallest restRem =>
    subst hsrem
    rw [mergeNext_cons] at h
    split_ifs at h with hpop
    · have h' : (some smallest, (⟨sit, restRem, sms⟩ : MergeState M)) =
          ((none : Option (OrderedRangeItem M)), s') := h
      injection h' with h1 h2
      exact Option.noConfusion h1
    · cases hml : mergeLoop (some smallest.range.stop) sit (smallest :: restRem) sms with
      | mk it2 rest2 =>
        obtain ⟨rem2, ms2⟩ := rest2
        rw [hml] at h
        cases rem2 with
        | nil =>
          have := mergeLoop_eq_nil (some smallest.range.stop) sit
            (smallest :: restRem) sms (by rw [hml])
          exact absurd this.2 (by simp)
        | cons f r =>
          have h' : (some f, (⟨it2, r, ms2⟩ : MergeState M)) =
              ((none : Option (OrderedRangeItem M)), s') := h
          injection h' with h1 h2
          exact Option.noConfusion h1
  | nil =>
    subst hsrem
    rw [mergeNext_nil] at h
    cases hml : mergeLoop none sit [] sms with
    | mk it2 rest2 =>
      obtain ⟨rem2, ms2⟩ := rest2
      rw [hml] at h
      cases rem2 with
      | nil =>
        have := mergeLoop_eq_nil none sit [] sms (by rw [hml])
        exact ⟨rfl, this.1⟩
      | cons f r =>
        have h' : (some f, (⟨it2, r, ms2⟩ : MergeState M)) =
            ((none : Option (OrderedRangeItem M)), s') := h
        injection h' with h1 h2
        exact Option.noConfusion h1

/-- Producing an item strictly decreases the termination measure. -/
theorem mergeNext_measure {M : Type} (s : MergeState M)
    (x : OrderedRangeItem M) (s' : MergeState M)
    (h : mergeNext s = (some x, s')) :
    3 * s'.iter.length + s'.remainers.length <
      3 * s.iter.length + s.remainers.length := by
  obtain ⟨sit, srem, sms⟩ := s
  cases hsrem : srem with
  | cons smallest restRem =>
    subst hsrem
    rw [mergeNext_cons] at h
    split_ifs at h with hpop
    · have h' : (some smallest, (⟨sit, restRem, sms⟩ : MergeState M)) = (some x, s') := h
      injection h' with h1 h2
      subst h2
      simp
    · cases hml : mergeLoop (some smallest.range.stop) sit (smallest :: restRem) sms with
      | mk it2 rest2 =>
        obtain ⟨rem2, ms2⟩ := rest2
        rw [hml] at h
        cases rem2 with
        | nil =>
          have h' : ((none : Option (OrderedRangeItem M)),
              (⟨it2, [], ms2⟩ : MergeState M)) = (some x, s') := h
          injection h' with h1 h2
          exact Option.noConfusion h1
        | cons f r =>
          have h' : (some f, (⟨it2, r, ms2⟩ : MergeState M)) = (some x, s') := h
          injection h' with h1 h2
          subst h2
          by_cases hsit : sit = []
          · subst hsit
            rw [mergeLoop_nil] at hml
            injection hml with ha hb
            injection hb with hb hc
            subst ha
            have hlen : (smallest :: restRem).length = (f :: r).length := by rw [hb]
            simp at hlen ⊢
            omega
          · have hms := mergeLoop_measure (some smallest.range.stop) sit
              (smallest :: restRem) sms hsit
            rw [hml] at hms
            simp at hms ⊢
            omega
  | nil =>
    subst hsrem
    rw [mergeNext_nil] at h
    cases hml : mergeLoop none sit [] sms with
    | mk it2 rest2 =>
      obtain ⟨rem2, ms2⟩ := rest2
      rw [hml] at h
      cases rem2 with
      | nil =>
        have h' : ((none : Option (OrderedRangeItem M)),
            (⟨it2, [], ms2⟩ : MergeState M)) = (some x, s') := h
        injection h' with h1 h2
        exact Option.noConfusion h1
      | cons f r =>
        have h' : (some f, (⟨it2, r, ms2⟩ : MergeState M)) = (some x, s') := h
        injection h' with h1 h2
        subst h2
        by_cases hsit : sit = []
        · subst hsit
          rw [mergeLoop_nil] at hml
          injection hml with ha hb
          injection hb with hb hc
          exact List.noConfusion hb
        · have hms := mergeLoop_measure none sit [] sms hsit
          rw [hml] at hms
          simp at hms ⊢
          omega

/-- Beyond the `mergeFuel` bound the collected output no longer depends on
the fuel: `mergeOutput` is the full output of the iterator. -/
theorem mergeAllFuel_stable {M : Type} :
    ∀ (n m : Nat) (s : MergeState M),
      3 * s.iter.length + s.remainers.length < n →
      3 * s.iter.length + s.remainers.length < m →
      mergeAllFuel n s = mergeAllFuel m s
  | 0, m, s, hn, _ => absurd hn (by omega)
  | n + 1, 0, s, _, hm => absurd hm (by omega)
  | n + 1, m + 1, s, hn, hm => by
    unfold mergeAllFuel
    cases hmn : mergeNext s with
    | mk ox s' =>
      cases ox with
      | none => rfl
      | some x =>
        have hdec := mergeNext_measure s x s' hmn
        show x :: mergeAllFuel n s' = x :: mergeAllFuel m s'
        rw [mergeAllFuel_stable n m s' (by omega) (by omega)]

/-! ## Merge engine: coverage (C3) -/

/-- No coordinate is covered by the empty list. -/
theorem coveredBy_nil {M : Type} (x : Nat) :
    coveredBy ([] : List (OrderedRangeItem M)) x ↔ False := by
  simp [coveredBy]

/-- Coverage by a cons. -/
theorem coveredBy_cons {M : Type} (e : OrderedRangeItem M)
    (l : List (OrderedRangeItem M)) (x : Nat) :
    coveredBy (e :: l) x ↔ memRange x e.range ∨ coveredBy l x := by
  constructor
  · rintro ⟨i, hi, hp⟩
    rcases List.mem_cons.1 hi with h | h
    · subst h; exact Or.inl hp
    · exact Or.inr ⟨i, h, hp⟩
  · rintro (h | ⟨i, hi, hp⟩)
    · exact ⟨e, List.mem_cons_self _ _, h⟩
    · exact ⟨i, List.mem_cons_of_mem _ hi, hp⟩

/-- Coverage by an append. -/
theorem coveredBy_append {M : Type} (u v : List (OrderedRangeItem M)) (x : Nat) :
    coveredBy (u ++ v) x ↔ coveredBy u x ∨ coveredBy v x := by
  constructor
  · rintro ⟨i, hi, hp⟩
    rcases List.mem_append.1 hi with h | h
    · exact Or.inl ⟨i, h, hp⟩
    · exact Or.inr ⟨i, h, hp⟩
  · rintro (⟨i, hi, hp⟩ | ⟨i, hi, hp⟩)
    · exact ⟨i, List.mem_append.2 (Or.inl hi), hp⟩
    · exact ⟨i, List.mem_append.2 (Or.inr hi), hp⟩

/-- Coverage is invariant under reversal. -/
theorem coveredBy_reverse {M : Type} (l : List (OrderedRangeItem M)) (x : Nat) :
    coveredBy l.reverse x ↔ coveredBy l x := by
  constructor
  · rintro ⟨i, hi, hp⟩
    exact ⟨i, List.mem_reverse.1 hi, hp⟩
  · rintro ⟨i, hi, hp⟩
    exact ⟨i, List.mem_reverse.2 hi, hp⟩

/-- Projections of a range update. -/
theorem range_update {M : Type} (i : OrderedRangeItem M) (r : NonZeroRange) :
    ({ i with range := r } : OrderedRangeItem M).range = r := rfl

/-- Projections of a range literal. -/
theorem mk_start (a b : Nat) : (⟨a, b⟩ : NonZeroRange).start = a := rfl

/-- Projections of a range literal. -/
theorem mk_stop (a b : Nat) : (⟨a, b⟩ : NonZeroRange).stop = b := rfl

/-- A failed `tryFromRange` means the candidate range was empty. -/
theorem tryFromRange_error_le (s e : Nat) (p : Nat × Nat)
    (h : tryFromRange s e = .error p) : e ≤ s := by
  by_cases hse : s < e
  · rw [show tryFromRange s e = .ok ⟨s, e⟩ from by unfold tryFromRange; simp [hse]] at h
    exact Except.noConfusion h
  · omega

/-- Insertion preserves the union of covered coordinates (modulo the
already-emitted records `G`): the buffer after `insert_remainer` covers
exactly what the old buffer covered plus the new item's span.  This needs
the left-coverage invariant: pieces the scan discards below an
equal-or-higher-priority element are covered by that element together with
the buffer entries to its left. -/
theorem insertRemAux_coverage {M : Type} :
    ∀ (rev : List (OrderedRangeItem M)) (new : OrderedRangeItem M)
      (back G : List (OrderedRangeItem M)) (ms : Nat),
      ms ≤ new.range.start →
      new.range.start < new.range.stop →
      RevLeftCov ms G rev →
      ∀ x, coveredBy (insertRemAux rev new back) x ∨ coveredBy G x ↔
        coveredBy rev x ∨ memRange x new.range ∨ coveredBy back x ∨ coveredBy G x
  | [], new, back, G, ms, hms, hnz, hrlc, x => by
    rw [show insertRemAux [] new back = new :: back from rfl, coveredBy_cons,
      coveredBy_nil]
    tauto
  | existing :: revRest, new, back, G, ms, hms, hnz, hrlc, x => by
    obtain ⟨hcov, hrlc'⟩ := hrlc
    unfold insertRemAux
    split_ifs with h1 h2
    · -- no overlap: pure rearrangement
      simp only [coveredBy_append, coveredBy_reverse, coveredBy_cons]
      tauto
    · -- existing keeps priority: truncate or discard new
      rw [Nat.not_le] at h1
      cases ht : tryFromRange existing.range.stop new.range.stop with
      | ok r =>
        obtain ⟨hlt, hr⟩ := (tryFromRange_ok_iff _ _ r).1 ht
        subst hr
        simp only [coveredBy_append, coveredBy_reverse, coveredBy_cons,
          range_update, memRange, mk_start, mk_stop]
        have hTN : existing.range.stop ≤ x ∧ x < new.range.stop →
            new.range.start ≤ x ∧ x < new.range.stop := by omega
        have hNsplit : new.range.start ≤ x ∧ x < new.range.stop →
            (existing.range.stop ≤ x ∧ x < new.range.stop) ∨
            (existing.range.start ≤ x ∧ x < existing.range.stop) ∨
            coveredBy revRest x ∨ coveredBy G x := by
          intro hN
          by_cases hx : existing.range.stop ≤ x
          · exact Or.inl ⟨hx, hN.2⟩
          · by_cases hx2 : existing.range.start ≤ x
            · exact Or.inr (Or.inl ⟨hx2, by omega⟩)
            · have := hcov x (by omega) (by omega)
              rw [coveredBy_append] at this
              tauto
        itauto
      | error p =>
        have hle := tryFromRange_error_le _ _ _ ht
        simp only [coveredBy_append, coveredBy_reverse, coveredBy_cons,
          memRange]
        have hNsplit : new.range.start ≤ x ∧ x < new.range.stop →
            (existing.range.start ≤ x ∧ x < existing.range.stop) ∨
            coveredBy revRest x ∨ coveredBy G x := by
          intro hN
          by_cases hx2 : existing.range.start ≤ x
          · exact Or.inl ⟨hx2, by omega⟩
          · have := hcov x (by omega) (by omega)
            rw [coveredBy_append] at this
            tauto
        itauto
    · -- new wins
      rw [Nat.not_le] at h1 h2
      cases hb : tryFromRange existing.range.start new.range.start with
      | ok before =>
        obtain ⟨hltb, hrb⟩ := (tryFromRange_ok_iff _ _ before).1 hb
        subst hrb
        cases ha : tryFromRange new.range.stop existing.range.stop with
        | ok after =>
          obtain ⟨hlta, hra⟩ := (tryFromRange_ok_iff _ _ after).1 ha
          subst hra
          simp only [coveredBy_append, coveredBy_reverse, coveredBy_cons,
            range_update, memRange, mk_start, mk_stop]
          have hbeE : existing.range.start ≤ x ∧ x < new.range.start →
              existing.range.start ≤ x ∧ x < existing.range.stop := by omega
          have hafE : new.range.stop ≤ x ∧ x < existing.range.stop →
              existing.range.start ≤ x ∧ x < existing.range.stop := by omega
          have hEsplit : existing.range.start ≤ x ∧ x < existing.range.stop →
              (existing.range.start ≤ x ∧ x < new.range.start) ∨
              (new.range.start ≤ x ∧ x < new.range.stop) ∨
              (new.range.stop ≤ x ∧ x < existing.range.stop) := by omega
          itauto
        | error p =>
          have hlea := tryFromRange_error_le _ _ _ ha
          simp only [coveredBy_append, coveredBy_reverse, coveredBy_cons,
            range_update, memRange, mk_start, mk_stop]
          have hbeE : existing.range.start ≤ x ∧ x < new.range.start →
              existing.range.start ≤ x ∧ x < existing.range.stop := by omega
          have hEsplit : existing.range.start ≤ x ∧ x < existing.range.stop →
              (existing.range.start ≤ x ∧ x < new.range.start) ∨
              (new.range.start ≤ x ∧ x < new.range.stop) := by omega
          itauto
      | error p =>
        have hleb := tryFromRange_error_le _ _ _ hb
        cases ha : tryFromRange new.range.stop existing.range.stop with
        | ok after =>
          obtain ⟨hlta, hra⟩ := (tryFromRange_ok_iff _ _ after).1 ha
          subst hra
          have ih := insertRemAux_coverage revRest new
            ({ existing with range := ⟨new.range.stop, existing.range.stop⟩ } :: back)
            G ms hms hnz hrlc' x
          rw [ih]
          simp only [coveredBy_cons, range_update, memRange, mk_start, mk_stop]
          have hafsplit : new.range.stop ≤ x ∧ x < existing.range.stop →
              (existing.range.start ≤ x ∧ x < existing.range.stop) ∨
              coveredBy revRest x ∨ coveredBy G x := by
            intro hA
            by_cases hx2 : existing.range.start ≤ x
            · exact Or.inl ⟨hx2, hA.2⟩
            · have := hcov x (by omega) (by omega)
              rw [coveredBy_append] at this
              tauto
          have hEsplit : existing.range.start ≤ x ∧ x < existing.range.stop →
              (new.range.start ≤ x ∧ x < new.range.stop) ∨
              (new.range.stop ≤ x ∧ x < existing.range.stop) := by omega
          itauto
        | error p2 =>
          have hlea := tryFromRange_error_le _ _ _ ha
          have ih := insertRemAux_coverage revRest new back G ms hms hnz hrlc' x
          rw [ih]
          simp only [coveredBy_cons, memRange]
          have hEN : existing.range.start ≤ x ∧ x < existing.range.stop →
              new.range.start ≤ x ∧ x < new.range.stop := by omega
          itauto

/-- The left-coverage invariant is antitone in the horizon. -/
theorem revLeftCov_mono {M : Type} (ms ms' : Nat)
    (G : List (OrderedRangeItem M)) (h : ms ≤ ms') :
    ∀ (l : List (OrderedRangeItem M)), RevLeftCov ms G l → RevLeftCov ms' G l
  | [], _ => trivial
  | e :: rest, ⟨hc, hr⟩ =>
    ⟨fun x hx1 hx2 => hc x (by omega) hx2, revLeftCov_mono ms ms' G h rest hr⟩

/-- Prepending elements whose required left-coverage already comes from the
tail part `v` (or `G`). -/
theorem revLeftCov_build {M : Type} (ms : Nat) (G : List (OrderedRangeItem M)) :
    ∀ (w v : List (OrderedRangeItem M)),
      RevLeftCov ms G v →
      (∀ e ∈ w, ∀ x, ms ≤ x → x < e.range.start → coveredBy (v ++ G) x) →
      RevLeftCov ms G (w ++ v)
  | [], v, hv, _ => hv
  | e :: w', v, hv, hw =>
    ⟨fun x hx1 hx2 => by
      have := hw e (List.mem_cons_self _ _) x hx1 hx2
      simp only [List.append_eq] at this ⊢
      rw [coveredBy_append] at this
      rw [coveredBy_append, coveredBy_append]
      tauto,
    revLeftCov_build ms G w' v hv
      (fun e' he' => hw e' (List.mem_cons_of_mem _ he'))⟩

/-- Popping the last element of the reversed buffer (= the front of the
buffer) into the emitted list preserves left-coverage. -/
theorem revLeftCov_pop {M : Type} (ms : Nat) (G : List (OrderedRangeItem M)) :
    ∀ (u : List (OrderedRangeItem M)) (f : OrderedRangeItem M),
      RevLeftCov ms G (u ++ [f]) → RevLeftCov ms (f :: G) u
  | [], f, _ => trivial
  | e :: u', f, ⟨hc, hr⟩ =>
    ⟨fun x hx1 hx2 => by
      have := hc x hx1 hx2
      simp only [List.append_eq] at this
      rw [List.append_assoc] at this
      exact this,
    revLeftCov_pop ms G u' f hr⟩

/-- Insertion preserves left-coverage, now with the new item's start as
the horizon. -/
theorem insertRemAux_leftcov {M : Type} :
    ∀ (rev : List (OrderedRangeItem M)) (new : OrderedRangeItem M)
      (back G : List (OrderedRangeItem M)) (ms : Nat),
      ms ≤ new.range.start →
      RevLeftCov ms G rev →
      (∀ b ∈ back, b.range.start = new.range.stop) →
      RevLeftCov new.range.start G ((insertRemAux rev new back).reverse)
  | [], new, back, G, ms, hms, hrlc, hback => by
    rw [show (insertRemAux [] new back).reverse = back.reverse ++ [new] from by
      simp [insertRemAux]]
    refine revLeftCov_build _ G back.reverse [new]
      ⟨fun x hx1 hx2 => absurd hx1 (by omega), trivial⟩ ?_
    intro e he x hx1 hx2
    rw [List.mem_reverse] at he
    rw [hback e he] at hx2
    exact ⟨new, by simp, hx1, hx2⟩
  | existing :: revRest, new, back, G, ms, hms, hrlc, hback => by
    obtain ⟨hcov, hrlc'⟩ := hrlc
    unfold insertRemAux
    split_ifs with h1 h2
    · -- no overlap
      rw [show ((existing :: revRest).reverse ++ new :: back).reverse =
          back.reverse ++ (new :: existing :: revRest) from by simp]
      refine revLeftCov_build _ G _ _
        ⟨fun x hx1 hx2 => absurd hx1 (by omega),
          fun x hx1 hx2 => by
            have := hcov x (by omega) hx2
            rw [coveredBy_append] at this
            rw [coveredBy_append]
            tauto,
          revLeftCov_mono ms _ G hms revRest hrlc'⟩ ?_
      intro e he x hx1 hx2
      rw [List.mem_reverse] at he
      rw [hback e he] at hx2
      rw [coveredBy_append]
      exact Or.inl ⟨new, by simp, hx1, hx2⟩
    · rw [Nat.not_le] at h1
      cases ht : tryFromRange existing.range.stop new.range.stop with
      | ok r =>
        obtain ⟨hlt, hr⟩ := (tryFromRange_ok_iff _ _ r).1 ht
        subst hr
        rw [show ((existing :: revRest).reverse ++
            { new with range := ⟨existing.range.stop, new.range.stop⟩ } :: back).reverse =
            back.reverse ++
              ({ new with range := ⟨existing.range.stop, new.range.stop⟩ } ::
                existing :: revRest) from by simp]
        have hvcov : ∀ x, new.range.start ≤ x → x < existing.range.stop →
            coveredBy ((existing :: revRest) ++ G) x := by
          intro x hx1 hx2
          rw [coveredBy_append, coveredBy_cons]
          by_cases hx3 : existing.range.start ≤ x
          · exact Or.inl (Or.inl ⟨hx3, hx2⟩)
          · have := hcov x (by omega) (by omega)
            rw [coveredBy_append] at this
            tauto
        refine revLeftCov_build _ G _ _
          ⟨fun x hx1 hx2 => by
            rw [range_update, mk_start] at hx2
            have := hvcov x hx1 hx2
            rw [coveredBy_append] at this
            rw [coveredBy_append]
            tauto,
            fun x hx1 hx2 => by
              have := hcov x (by omega) hx2
              rw [coveredBy_append] at this
              rw [coveredBy_append]
              tauto,
            revLeftCov_mono ms _ G hms revRest hrlc'⟩ ?_
        intro e he x hx1 hx2
        rw [List.mem_reverse] at he
        rw [hback e he] at hx2
        rw [coveredBy_append, coveredBy_cons]
        by_cases hx3 : existing.range.stop ≤ x
        · exact Or.inl (Or.inl (by rw [range_update]; exact ⟨hx3, hx2⟩))
        · have := hvcov x hx1 (by omega)
          rw [coveredBy_append] at this
          tauto
      | error p =>
        have hle := tryFromRange_error_le _ _ _ ht
        rw [show ((existing :: revRest).reverse ++ back).reverse =
            back.reverse ++ (existing :: revRest) from by simp]
        refine revLeftCov_build _ G _ _
          ⟨fun x hx1 hx2 => by
            have := hcov x (by omega) hx2
            rw [coveredBy_append] at this
            rw [coveredBy_append]
            tauto,
            revLeftCov_mono ms _ G hms revRest hrlc'⟩ ?_
        intro e he x hx1 hx2
        rw [List.mem_reverse] at he
        rw [hback e he] at hx2
        rw [coveredBy_append, coveredBy_cons]
        by_cases hx3 : existing.range.start ≤ x
        · exact Or.inl (Or.inl ⟨hx3, by omega⟩)
        · have := hcov x (by omega) (by omega)
          rw [coveredBy_append] at this
          tauto
    · rw [Nat.not_le] at h1 h2
      cases hb : tryFromRange existing.range.start new.range.start with
      | ok before =>
        obtain ⟨hltb, hrb⟩ := (tryFromRange_ok_iff _ _ before).1 hb
        subst hrb
        cases ha : tryFromRange new.range.stop existing.range.stop with
        | ok after =>
          obtain ⟨hlta, hra⟩ := (tryFromRange_ok_iff _ _ after).1 ha
          subst hra
          rw [show (revRest.reverse ++
              { existing with range := ⟨existing.range.start, new.range.start⟩ } :: new ::
                { existing with range := ⟨new.range.stop, existing.range.stop⟩ } :: back).reverse =
              back.reverse ++
                ({ existing with range := ⟨new.range.stop, existing.range.stop⟩ } :: new ::
                  { existing with range := ⟨existing.range.start, new.range.start⟩ } ::
                    revRest) from by simp]
          refine revLeftCov_build _ G _ _
            ⟨fun x hx1 hx2 => by
              rw [range_update, mk_start] at hx2
              rw [coveredBy_append, coveredBy_cons]
              exact Or.inl (Or.inl ⟨hx1, hx2⟩),
              fun x hx1 hx2 => absurd hx1 (by omega),
              fun x hx1 hx2 => by
                rw [range_update, mk_start] at hx2
                exact absurd hx1 (by omega),
              revLeftCov_mono ms _ G hms revRest hrlc'⟩ ?_
          intro e he x hx1 hx2
          rw [List.mem_reverse] at he
          rw [hback e he] at hx2
          rw [coveredBy_append, coveredBy_cons, coveredBy_cons]
          exact Or.inl (Or.inr (Or.inl ⟨hx1, hx2⟩))
        | error p =>
          have hlea := tryFromRange_error_le _ _ _ ha
          rw [show (revRest.reverse ++
              { existing with range := ⟨existing.range.start, new.range.start⟩ } :: new ::
                back).reverse =
              back.reverse ++
                (new :: { existing with range := ⟨existing.range.start, new.range.start⟩ } ::
                  revRest) from by simp]
          refine revLeftCov_build _ G _ _
            ⟨fun x hx1 hx2 => absurd hx1 (by omega),
              fun x hx1 hx2 => by
                rw [range_update, mk_start] at hx2
                exact absurd hx1 (by omega),
              revLeftCov_mono ms _ G hms revRest hrlc'⟩ ?_
          intro e he x hx1 hx2
          rw [List.mem_reverse] at he
          rw [hback e he] at hx2
          rw [coveredBy_append, coveredBy_cons]
          exact Or.inl (Or.inl ⟨hx1, hx2⟩)
      | error p =>
        have hleb := tryFromRange_error_le _ _ _ hb
        cases ha : tryFromRange new.range.stop existing.range.stop with
        | ok after =>
          obtain ⟨hlta, hra⟩ := (tryFromRange_ok_iff _ _ after).1 ha
          subst hra
          exact insertRemAux_leftcov revRest new
            ({ existing with range := ⟨new.range.stop, existing.range.stop⟩ } :: back)
            G ms hms hrlc'
            (fun b hb' => by
              rcases List.mem_cons.1 hb' with h | h
              · subst h; rw [range_update]
              · exact hback b h)
        | error p2 =>
          exact insertRemAux_leftcov revRest new back G ms hms hrlc' hback

/-- Coverage equation for `insert_remainer` itself. -/
theorem insert_remainer_coverage {M : Type}
    (l : List (OrderedRangeItem M)) (new : OrderedRangeItem M)
    (G : List (OrderedRangeItem M)) (ms : Nat)
    (hms : ms ≤ new.range.start) (hnz : new.range.start < new.range.stop)
    (hrlc : RevLeftCov ms G l.reverse) (x : Nat) :
    coveredBy (insert_remainer l new) x ∨ coveredBy G x ↔
      coveredBy l x ∨ memRange x new.range ∨ coveredBy G x := by
  have := insertRemAux_coverage l.reverse new [] G ms hms hnz hrlc x
  rw [coveredBy_reverse, coveredBy_nil] at this
  rw [show insert_remainer l new = insertRemAux l.reverse new [] from rfl, this]
  tauto

/-- Left-coverage for the buffer produced by `insert_remainer`. -/
theorem insert_remainer_leftcov {M : Type}
    (l : List (OrderedRangeItem M)) (new : OrderedRangeItem M)
    (G : List (OrderedRangeItem M)) (ms : Nat)
    (hms : ms ≤ new.range.start)
    (hrlc : RevLeftCov ms G l.reverse) :
    RevLeftCov new.range.start G (insert_remainer l new).reverse :=
  insertRemAux_leftcov l.reverse new [] G ms hms hrlc (by simp)

/-- A start-sorted cons gives the head bound for its tail. -/
theorem headGE_of_chain {M : Type} (next : OrderedRangeItem M)
    (rest : List (OrderedRangeItem M))
    (hch : (next :: rest).Chain' (fun a b => a.range.start ≤ b.range.start)) :
    headGE next.range.start rest := by
  cases rest with
  | nil => trivial
  | cons b rest' =>
    rw [List.chain'_cons] at hch
    exact hch.1

/-- Propositional plumbing for one loop step. -/
theorem cover_iff_step (A B C D E : Prop) (h2 : A ∨ E ↔ B ∨ C ∨ E) :
    A ∨ D ∨ E ↔ B ∨ (C ∨ D) ∨ E := by
  tauto

/-- Propositional plumbing: regrouping the first two disjuncts. -/
theorem cover_iff_pop (a b c d : Prop) : a ∨ b ∨ c ∨ d ↔ (a ∨ b) ∨ c ∨ d := by
  tauto

/-- Propositional plumbing for one `next` production step. -/
theorem cover_iff_run (O A B X E R : Prop) (hih : O ∨ X ∨ E ↔ A ∨ B ∨ X ∨ E)
    (hc : X ∨ A ∨ B ∨ E ↔ R) : (X ∨ O) ∨ E ↔ R := by
  tauto

/-- The loop of `next` preserves the covered set and the state
invariants: after consuming any number of input items, buffer plus pending
input plus emitted cover exactly what they did before. -/
theorem mergeLoop_coverage {M : Type} :
    ∀ (fe : Option Nat) (iter rem G : List (OrderedRangeItem M)) (ms : Nat),
      headGE ms iter →
      iter.Chain' (fun a b => a.range.start ≤ b.range.start) →
      (∀ y ∈ iter, y.range.start < y.range.stop) →
      RevLeftCov ms G rem.reverse →
      (∀ x, coveredBy (mergeLoop fe iter rem ms).2.1 x ∨
          coveredBy (mergeLoop fe iter rem ms).1 x ∨ coveredBy G x ↔
        coveredBy rem x ∨ coveredBy iter x ∨ coveredBy G x) ∧
      headGE (mergeLoop fe iter rem ms).2.2 (mergeLoop fe iter rem ms).1 ∧
      (mergeLoop fe iter rem ms).1.Chain'
        (fun a b => a.range.start ≤ b.range.start) ∧
      (∀ y ∈ (mergeLoop fe iter rem ms).1, y.range.start < y.range.stop) ∧
      RevLeftCov (mergeLoop fe iter rem ms).2.2 G
        (mergeLoop fe iter rem ms).2.1.reverse
  | fe, [], rem, G, ms, hh, hch, hnz, hrlc => by
    rw [mergeLoop_nil]
    exact ⟨fun x => Iff.rfl, trivial, List.chain'_nil, by simp, hrlc⟩
  | fe, next :: rest, rem, G, ms, hh, hch, hnz, hrlc => by
    have hms : ms ≤ next.range.start := hh
    have hnznext : next.range.start < next.range.stop :=
      hnz next (List.mem_cons_self _ _)
    have hcovins := insert_remainer_coverage rem next G ms hms hnznext hrlc
    have hlcins := insert_remainer_leftcov rem next G ms hms hrlc
    have hh' : headGE next.range.start rest := headGE_of_chain next rest hch
    have hch' : rest.Chain' (fun a b => a.range.start ≤ b.range.start) :=
      hch.tail
    have hnz' : ∀ y ∈ rest, y.range.start < y.range.stop :=
      fun y hy => hnz y (List.mem_cons_of_mem _ hy)
    rw [mergeLoop_cons]
    split_ifs with hbrk
    · dsimp only
      refine ⟨fun x => ?_, hh', hch', hnz', hlcins⟩
      rw [coveredBy_cons]
      exact cover_iff_step _ _ _ _ _ (hcovins x)
    · obtain ⟨ihcov, ihh, ihch, ihnz, ihrlc⟩ := mergeLoop_coverage
        (some (fe.getD next.range.stop)) rest (insert_remainer rem next) G
        next.range.start hh' hch' hnz' hlcins
      refine ⟨fun x => ?_, ihh, ihch, ihnz, ihrlc⟩
      rw [coveredBy_cons, ihcov x]
      exact cover_iff_step _ _ _ _ _ (hcovins x)

/-- One `next` call preserves the covered set: the produced item plus
the residual state cover exactly what the previous state covered; the
invariants carry to the new state with the produced item joining the
emitted list. -/
theorem mergeNext_coverage {M : Type}
    (sit srem G : List (OrderedRangeItem M)) (sms : Nat)
    (x : OrderedRangeItem M) (s' : MergeState M)
    (hh : headGE sms sit)
    (hch : sit.Chain' (fun a b => a.range.start ≤ b.range.start))
    (hnz : ∀ y ∈ sit, y.range.start < y.range.stop)
    (hrlc : RevLeftCov sms G srem.reverse)
    (h : mergeNext ⟨sit, srem, sms⟩ = (some x, s')) :
    (∀ z, memRange z x.range ∨ coveredBy s'.remainers z ∨ coveredBy s'.iter z ∨
        coveredBy G z ↔
      coveredBy srem z ∨ coveredBy sit z ∨ coveredBy G z) ∧
    headGE s'.max_start s'.iter ∧
    s'.iter.Chain' (fun a b => a.range.start ≤ b.range.start) ∧
    (∀ y ∈ s'.iter, y.range.start < y.range.stop) ∧
    RevLeftCov s'.max_start (x :: G) s'.remainers.reverse := by
  cases hsrem : srem with
  | cons smallest restRem =>
    subst hsrem
    rw [mergeNext_cons] at h
    split_ifs at h with hpop
    · have h' : (some smallest, (⟨sit, restRem, sms⟩ : MergeState M)) = (some x, s') := h
      injection h' with h1 h2
      injection h1 with h1
      subst h1
      subst h2
      refine ⟨fun z => by rw [coveredBy_cons]; exact cover_iff_pop _ _ _ _, hh, hch, hnz, ?_⟩
      refine revLeftCov_pop sms G restRem.reverse smallest ?_
      rw [show restRem.reverse ++ [smallest] = (smallest :: restRem).reverse from by simp]
      exact hrlc
    · obtain ⟨ihcov, ihh, ihch, ihnz, ihrlc⟩ := mergeLoop_coverage
        (some smallest.range.stop) sit (smallest :: restRem) G sms hh hch hnz hrlc
      cases hml : mergeLoop (some smallest.range.stop) sit (smallest :: restRem) sms with
      | mk it2 rest2 =>
        obtain ⟨rem2, ms2⟩ := rest2
        rw [hml] at h ihcov ihh ihch ihnz ihrlc
        dsimp only at ihcov ihh ihch ihnz ihrlc
        cases rem2 with
        | nil =>
          have h' : ((none : Option (OrderedRangeItem M)),
              (⟨it2, [], ms2⟩ : MergeState M)) = (some x, s') := h
          injection h' with h1 h2
          exact Option.noConfusion h1
        | cons f r =>
          have h' : (some f, (⟨it2, r, ms2⟩ : MergeState M)) = (some x, s') := h
          injection h' with h1 h2
          injection h1 with h1
          subst h1
          subst h2
          refine ⟨fun z => ?_, ihh, ihch, ihnz, ?_⟩
          · have := ihcov z
            rw [coveredBy_cons] at this
            exact (cover_iff_pop _ _ _ _).trans this
          · refine revLeftCov_pop ms2 G r.reverse f ?_
            rw [show r.reverse ++ [f] = (f :: r).reverse from by simp]
            exact ihrlc
  | nil =>
    subst hsrem
    rw [mergeNext_nil] at h
    obtain ⟨ihcov, ihh, ihch, ihnz, ihrlc⟩ := mergeLoop_coverage
      none sit [] G sms hh hch hnz (by rw [List.reverse_nil]; trivial)
    cases hml : mergeLoop none sit [] sms with
    | mk it2 rest2 =>
      obtain ⟨rem2, ms2⟩ := rest2
      rw [hml] at h ihcov ihh ihch ihnz ihrlc
      dsimp only at ihcov ihh ihch ihnz ihrlc
      cases rem2 with
      | nil =>
        have h' : ((none : Option (OrderedRangeItem M)),
            (⟨it2, [], ms2⟩ : MergeState M)) = (some x, s') := h
        injection h' with h1 h2
        exact Option.noConfusion h1
      | cons f r =>
        have h' : (some f, (⟨it2, r, ms2⟩ : MergeState M)) = (some x, s') := h
        injection h' with h1 h2
        injection h1 with h1
        subst h1
        subst h2
        refine ⟨fun z => ?_, ihh, ihch, ihnz, ?_⟩
        · have := ihcov z
          rw [coveredBy_cons, coveredBy_nil] at this
          rw [coveredBy_nil]
          exact (cover_iff_pop _ _ _ _).trans this
        · refine revLeftCov_pop ms2 G r.reverse f ?_
          rw [show r.reverse ++ [f] = (f :: r).reverse from by simp]
          exact ihrlc

/-- A full (sufficiently fuelled) run covers exactly buffer plus pending
input (modulo the emitted records `G`). -/
theorem mergeAllFuel_coverage {M : Type} :
    ∀ (fuel : Nat) (s : MergeState M) (G : List (OrderedRangeItem M)),
      3 * s.iter.length + s.remainers.length < fuel →
      headGE s.max_start s.iter →
      s.iter.Chain' (fun a b => a.range.start ≤ b.range.start) →
      (∀ y ∈ s.iter, y.range.start < y.range.stop) →
      RevLeftCov s.max_start G s.remainers.reverse →
      ∀ z, coveredBy (mergeAllFuel fuel s) z ∨ coveredBy G z ↔
        coveredBy s.remainers z ∨ coveredBy s.iter z ∨ coveredBy G z
  | 0, s, G, hfuel, _, _, _, _ => absurd hfuel (by omega)
  | fuel + 1, s, G, hfuel, hh, hch, hnz, hrlc => by
    obtain ⟨sit, srem, sms⟩ := s
    intro z
    unfold mergeAllFuel
    cases hmn : mergeNext ⟨sit, srem, sms⟩ with
    | mk ox s' =>
      cases ox with
      | none =>
        obtain ⟨he1, he2⟩ := mergeNext_none _ _ hmn
        simp only at he1 he2
        subst he1
        subst he2
        show coveredBy ([] : List (OrderedRangeItem M)) z ∨ coveredBy G z ↔ _
        simp only [coveredBy_nil, false_or]
      | some x =>
        obtain ⟨hcov, ihh, ihch, ihnz, ihrlc⟩ :=
          mergeNext_coverage sit srem G sms x s' hh hch hnz hrlc hmn
        have hdec := mergeNext_measure ⟨sit, srem, sms⟩ x s' hmn
        dsimp only at hdec hfuel
        have ih := mergeAllFuel_coverage fuel s' (x :: G)
          (by omega) ihh ihch ihnz ihrlc z
        show coveredBy (x :: mergeAllFuel fuel s') z ∨ coveredBy G z ↔ _
        rw [coveredBy_cons]
        rw [coveredBy_cons] at ih
        exact cover_iff_run _ _ _ _ _ _ ih (hcov z)

/-- C3: on a sorted input of non-empty ranges, the union of the spans
emitted by the merge engine equals the union of the input spans: a
coordinate is covered by the output iff it is covered by some input. -/
theorem merge_coverage {M : Type} (l : List (OrderedRangeItem M))
    (hs : SortedInput l) (hnz : AllNonZero l) :
    ∀ x, coveredBy (mergeOutput l) x ↔ coveredBy l x := by
  intro x
  have hch : l.Chain' (fun a b => a.range.start ≤ b.range.start) := by
    refine List.Chain'.imp ?_ hs
    intro a b hab
    rcases hab with h | ⟨h, -⟩
    · omega
    · omega
  have hh : headGE 0 l := by
    cases l with
    | nil => trivial
    | cons a l' => exact Nat.zero_le _
  have h0 := mergeAllFuel_coverage (mergeFuel ⟨l, [], 0⟩) ⟨l, [], 0⟩ []
    (by simp [mergeFuel]) hh hch hnz (by rw [List.reverse_nil]; trivial) x
  dsimp only at h0
  rw [coveredBy_nil] at h0
  simp only [or_false, false_or] at h0
  rw [show mergeOutput l = mergeAllFuel (mergeFuel ⟨l, [], 0⟩) ⟨l, [], 0⟩ from rfl]
  exact h0

/-- Witness for `merge_coverage` at the `priority_overlaps_before` test
input and coordinate `12`. -/
theorem merge_coverage_witness :
    coveredBy (mergeOutput
      [⟨⟨0, 10⟩, 1, ()⟩, (⟨⟨5, 15⟩, 0, ()⟩ : OrderedRangeItem Unit)]) 12 ↔
      coveredBy [⟨⟨0, 10⟩, 1, ()⟩, (⟨⟨5, 15⟩, 0, ()⟩ : OrderedRangeItem Unit)] 12 :=
  merge_coverage _ (by decide) (by decide) 12
